import Mathlib

/-!
Verification development for the composition / adduct / isotope / noise core of
the glycogenius `General_Functions` module.  Python dictionaries are modelled as
insertion-ordered association lists (`Dict`); fallible operations (KeyError,
ValueError, ZeroDivisionError paths) return `Option`.
-/

set_option maxHeartbeats 1000000

/-- Association-list model of a Python `dict` from strings to ints:
insertion order is the list order, keys are unique in every dict the code
builds. -/
abbrev Dict := List (String × Int)

/-- Python `d[k]` read access (first entry wins; the dicts built by the code
never hold a duplicate key). -/
def dlookup (d : Dict) (k : String) : Option Int :=
  match d with
  | [] => none
  | (k', v) :: rest => if k' = k then some v else dlookup rest k

/-- Python `d[k] = v`: overwrite in place when the key exists (keeping its
position), append otherwise. -/
def dinsert (d : Dict) (k : String) (v : Int) : Dict :=
  match d with
  | [] => [(k, v)]
  | (k', v') :: rest => if k' = k then (k', v) :: rest else (k', v') :: dinsert rest k v

/-- Membership of a key, Python `k in d`. -/
def hasKey (d : Dict) (k : String) : Bool :=
  match d with
  | [] => false
  | (k', _) :: rest => k' = k || hasKey rest k

/-- Python `==` on dicts: same keys with the same values (order irrelevant). -/
def dictEqv (a b : Dict) : Bool :=
  a.all (fun p => dlookup b p.1 = some p.2) && b.all (fun p => dlookup a p.1 = some p.2)

/-- Value equality of dicts as finitely supported maps: every key has the same
count, a missing key counting as 0 (the data model's "missing keys are
implicitly 0"). -/
def dictEqv0 (a b : Dict) : Bool :=
  a.all (fun p => (dlookup b p.1).getD 0 = p.2) && b.all (fun p => (dlookup a p.1).getD 0 = p.2)

/-! ## The `re.split` tokenizer

`re.split('(\\d+)', string)` splits a string into an alternating list of
(possibly empty) non-digit runs and nonempty digit runs, beginning and ending
with a non-digit run; the result length is always odd. -/

mutual

/-- State of the splitter while scanning a non-digit run (`cur` holds the run
read so far, reversed). -/
def splitAuxND (cur : List Char) : List Char → List String
  | [] => [String.mk cur.reverse]
  | c :: cs =>
    if c.isDigit then String.mk cur.reverse :: splitAuxD [c] cs
    else splitAuxND (c :: cur) cs

/-- State of the splitter while scanning a digit run. -/
def splitAuxD (cur : List Char) : List Char → List String
  | [] => [String.mk cur.reverse, ""]
  | c :: cs =>
    if c.isDigit then splitAuxD (c :: cur) cs
    else String.mk cur.reverse :: splitAuxND [c] cs

end

/-- The token list `re.split('(\\d+)', s)`. -/
def splitDigits (s : String) : List String :=
  splitAuxND [] s.data

/-- Whether the last character of a token is `'-'`, Python `i[-1] == '-'`
guarded by `i != ''`. -/
def lastIsDash (t : String) : Bool :=
  match t.data.getLast? with
  | some c => c = '-'
  | none => false

/-- Python `i[:-1]`. -/
def dropLastStr (t : String) : String := String.mk t.data.dropLast

/-- One even/odd token pair of the sign-fixing pass of `form_to_comp`
(lines 368-374): a token ending in `'-'` is stripped and sets the `negative`
flag; a nonempty token at odd index is prefixed with `'-'` whenever the flag is
set at that point.  The flag is never reset. -/
def stripFlag (neg : Bool) (t : String) : String × Bool :=
  if t ≠ "" ∧ lastIsDash t then (dropLastStr t, true) else (t, neg)

/-- Odd-index token handling: the strip check runs first, then the flag (as
updated) decides whether `'-' ++` the original token replaces it. -/
def numTok (neg : Bool) (t : String) : String × Bool :=
  let p := stripFlag neg t
  if t ≠ "" ∧ p.2 then ("-" ++ t, p.2) else p

/-- The whole sign-fixing pass, walking the token list two positions at a time
(indices are even, odd, even, odd, ...). -/
def applySigns (neg : Bool) : List String → List String
  | [] => []
  | [t] => [(stripFlag neg t).1]
  | t :: d :: rest =>
    let p := stripFlag neg t
    let q := numTok p.2 d
    p.1 :: q.1 :: applySigns q.2 rest

/-- Python `int(s)` on a token: optional sign followed by a nonempty digit
string. -/
def digitVal (c : Char) : Nat := c.toNat - 48

/-- Decimal value of a digit string. -/
def digitsVal (l : List Char) : Nat :=
  l.foldl (fun a c => 10 * a + digitVal c) 0

def pyint (s : String) : Option Int :=
  match s.data with
  | [] => none
  | c :: rest =>
    if c = '-' then
      if rest ≠ [] ∧ rest.all Char.isDigit then some (-(digitsVal rest : Int)) else none
    else if c = '+' then
      if rest ≠ [] ∧ rest.all Char.isDigit then some (digitsVal rest : Int) else none
    else if (c :: rest).all Char.isDigit then some (digitsVal (c :: rest) : Int) else none

/-- The pairing loop of `form_to_comp` (lines 377-379): even-index tokens are
keys, the following token is parsed as the count.  A trailing unpaired token is
ignored (the Python loop runs to `len - 1`). -/
def pairUp (ts : List String) (d : Dict) : Option Dict :=
  match ts with
  | [] => some d
  | [_] => some d
  | k :: v :: rest => (pyint v).bind (fun n => pairUp rest (dinsert d k n))

/-- `form_to_comp` (General_Functions.py lines 351-382): tokenize, run the
sign-fixing pass, append `"1"` when the token count is odd, pair tokens into a
dict and drop the `""` key.  `none` models a raised exception (in fact never
produced, see the totality theorem). -/
def form_to_comp (s : String) : Option Dict :=
  let ts := splitDigits s
  let ts1 := applySigns false ts
  let ts2 := if ts1.length % 2 ≠ 0 then ts1 ++ ["1"] else ts1
  (pairUp ts2 []).map (fun d => d.filter (fun p => p.1 ≠ ""))

/-- Decimal representation of a natural number (Python `str` on a nonnegative
int); the fuel argument is an upper bound on the number, enough for the
recursion on `n / 10`. -/
def natReprAux : Nat → Nat → List Char
  | 0, _ => []
  | fuel + 1, n =>
    if n < 10 then [Char.ofNat (48 + n)]
    else natReprAux fuel (n / 10) ++ [Char.ofNat (48 + n % 10)]

def natRepr (n : Nat) : String := String.mk (natReprAux (n + 1) n)

/-- Python `str` on an int. -/
def intRepr (v : Int) : String :=
  if v < 0 then "-" ++ natRepr (-v).toNat else natRepr v.toNat

/-- `comp_to_formula` (lines 530-547): concatenate `key ++ str(value)` for
every entry with a nonzero value, in insertion order. -/
def comp_to_formula (d : Dict) : String :=
  d.foldl (fun acc p => if p.2 ≠ 0 then acc ++ p.1 ++ intRepr p.2 else acc) ""

/-! ## The monosaccharide table and `glycan_to_atoms` -/

/-- One value of the module-level `monosaccharides` dict: full name, molecular
formula, residue atomic composition. -/
structure MonoRow where
  fullName : String
  formula : String
  comp : Dict
deriving DecidableEq, Repr

abbrev MonoTable := List (String × MonoRow)

/-- Lookup in the monosaccharide table (Python `monosaccharides[i]`). -/
def tlookup (t : MonoTable) (k : String) : Option MonoRow :=
  match t with
  | [] => none
  | (k', v) :: rest => if k' = k then some v else tlookup rest k

/-- The hard-coded module-level `monosaccharides` dictionary (lines 36-44), in
its state at import time. -/
def monosaccharides : MonoTable := [
  ("H", ⟨"Hexose", "C6O6H12", [("C", 6), ("O", 5), ("N", 0), ("H", 10)]⟩),
  ("N", ⟨"N-Acetyl Hexosamine", "C8O6NH15", [("C", 8), ("O", 5), ("N", 1), ("H", 13)]⟩),
  ("S", ⟨"Acetyl Neuraminic Acid", "C11O9NH19", [("C", 11), ("O", 8), ("N", 1), ("H", 17)]⟩),
  ("lS", ⟨"Lactonized Acetyl Neuraminic Acid alpha2,3 bound", "C11O8N2H20",
    [("C", 11), ("O", 7), ("N", 2), ("H", 18)]⟩),
  ("eS", ⟨"Ethyl-Esterified Acetyl Neuraminic Acid alpha2,6 bound", "C13O9NH23",
    [("C", 13), ("O", 8), ("N", 1), ("H", 21)]⟩),
  ("F", ⟨"Fucose", "C6O5H12", [("C", 6), ("O", 4), ("N", 0), ("H", 10)]⟩),
  ("G", ⟨"Glycolyl Neuraminic Acid", "C11O10NH19", [("C", 11), ("O", 9), ("N", 1), ("H", 17)]⟩)]

/-- Python `d[k] += n` on an atom dict (no-op on a missing key; the rows of the
table always carry the key). -/
def addAt (d : Dict) (k : String) (n : Int) : Dict :=
  d.map (fun p => if p.1 = k then (p.1, p.2 + n) else p)

/-- The in-place permethylation adjustment applied to one row of the table
(lines 437-449): hexose and HexNAc gain 3 C and 6 H, fucose 2 C and 4 H, the S
and G sialic acids 5 C and 10 H; every other row is untouched. -/
def methylAdjust (k : String) (d : Dict) : Dict :=
  if k = "H" then addAt (addAt d "C" 3) "H" 6
  else if k = "N" then addAt (addAt d "C" 3) "H" 6
  else if k = "F" then addAt (addAt d "C" 2) "H" 4
  else if k = "S" ∨ k = "G" then addAt (addAt d "C" 5) "H" 10
  else d

/-- The whole mutation pass over the shared table that `glycan_to_atoms` runs
whenever `permethylated` is true. -/
def permethylStep (t : MonoTable) : MonoTable :=
  t.map (fun e => (e.1, ⟨e.2.fullName, e.2.formula, methylAdjust e.1 e.2.comp⟩))

/-- The inner loop `for j in atoms: atoms[j] += monosaccharides[i][2][j] *
glycan_composition[i]`; `none` models the KeyError on a missing atom key. -/
def addScaled (atoms row : Dict) (v : Int) : Option Dict :=
  match atoms with
  | [] => some []
  | (j, a) :: rest =>
    match dlookup row j with
    | none => none
    | some w => (addScaled rest row v).map (fun r => (j, a + w * v) :: r)

/-- The outer loop of `glycan_to_atoms` over the glycan composition; `T`
residues are skipped, a residue missing from the table is a KeyError. -/
def glycanFold (tbl : MonoTable) : Dict → Dict → Option Dict
  | [], atoms => some atoms
  | (k, v) :: rest, atoms =>
    if k = "T" then glycanFold tbl rest atoms
    else
      match tlookup tbl k with
      | none => none
      | some row => (addScaled atoms row.comp v).bind (glycanFold tbl rest)

/-- `glycan_to_atoms` (lines 410-455) with the shared mutable table made an
explicit state argument: when `permethylated` is true the table is first
adjusted in place (this happens on *every* such call), then the atom counts
are accumulated against the adjusted table.  Returns the atom dict and the
table state after the call. -/
def glycan_to_atoms (glycan_composition : Dict) (permethylated : Bool) (tbl : MonoTable) :
    Option (Dict × MonoTable) :=
  let tbl1 := if permethylated then permethylStep tbl else tbl
  (glycanFold tbl1 glycan_composition [("C", 0), ("O", 0), ("N", 0), ("H", 0)]).map
    (fun a => (a, tbl1))

/-! ## Masses (pyteomics collaborator) and `calculate_comp_from_mass` -/

/-- Monoisotopic element masses used by `pyteomics.mass.calculate_mass`, as
exact rationals. -/
def elemMass (k : String) : ℚ :=
  if k = "H" then 1.00782503207
  else if k = "C" then 12
  else if k = "N" then 14.0030740048
  else if k = "O" then 15.9949146196
  else 0

/-- `pyteomics.mass.calculate_mass(composition = d)`: a weighted sum of
monoisotopic element masses. -/
def pyt_calculate_mass (d : Dict) : ℚ :=
  d.foldl (fun a p => a + (p.2 : ℚ) * elemMass p.1) 0

/-- The module-level `h_mass` (line 50): mass of one hydrogen-1 atom. -/
def h_mass : ℚ := pyt_calculate_mass [("H", 1)]

/-- `count_seq_letters` (lines 457-484): walk the string; on each letter
different from the current one, record the *total* number of its occurrences
in the whole string, with `L` and `E` renamed to `lS` and `eS`. -/
def cslGo (full : List Char) (d : Dict) (cur : Option Char) : List Char → Dict
  | [] => d
  | c :: cs =>
    if some c = cur then cslGo full d cur cs
    else
      let cnt : Int := (full.count c : Int)
      let d1 := if c = 'L' then dinsert d "lS" cnt else d
      let d2 :=
        if c = 'E' then dinsert d1 "eS" cnt
        else if c ≠ 'L' ∧ c ≠ 'E' then dinsert d1 (String.mk [c]) cnt
        else d1
      cslGo full d2 (some c) cs

def count_seq_letters (s : List Char) : Dict := cslGo s [] none s

/-- One level of `itertools.combinations_with_replacement`: drawing the first
element from each suffix of the alphabet. -/
def cwrAux (g : List α → List (List α)) : List α → List (List α)
  | [] => []
  | x :: xs => (g (x :: xs)).map (fun c => x :: c) ++ cwrAux g xs

/-- `itertools.combinations_with_replacement(l, n)` in its enumeration order:
all nondecreasing index selections of length `n`. -/
def cwr : Nat → List α → List (List α)
  | 0, _ => [[]]
  | n + 1, l => cwrAux (cwr n) l

/-- Python `int()` truncation toward zero on a rational. -/
def pytrunc (q : ℚ) : Int := q.num.tdiv q.den

/-- The search loop of `calculate_comp_from_mass`: the `while atoms_number >
atoms_number/2` condition (with float division) holds exactly while
`atoms_number > 0`, so sizes run from the initial estimate down to 1. -/
def searchLoop (tag : ℚ) : Nat → Dict × ℚ → Dict × ℚ
  | 0, closest => closest
  | n + 1, closest =>
    let stepped := (cwr (n + 1) ['C', 'O', 'N', 'H']).foldl
      (fun cl combo =>
        let sr := count_seq_letters combo
        let t := pyt_calculate_mass sr
        if |t - tag| < |cl.2 - tag| then (sr, t) else cl)
      closest
    searchLoop tag n stepped

/-- `calculate_comp_from_mass` (lines 549-585): brute-force search over C/O/N/H
multisets of size `int(tag_mass/5)` down to 1, keeping the composition whose
mass is closest to the target; the sentinel is the empty composition with
mass 0. -/
def calculate_comp_from_mass (tag_mass : ℚ) : Dict × ℚ :=
  searchLoop tag_mass (pytrunc (tag_mass / 5)).toNat ([], 0)

/-! ## `calculate_isotopic_pattern` -/

/-- Sort key of `sorted(isotop_arranged, key = lambda x: x['mz'])`. -/
def mzLE (p q : ℚ × ℚ) : Prop := p.1 ≤ q.1

instance : DecidableRel mzLE := fun p q => inferInstanceAs (Decidable (p.1 ≤ q.1))

/-- The clumping loop (lines 650-660) on (mass, relative abundance) pairs:
`prev` is the mass of the *previous input* peak, `last` the currently growing
output peak.  A peak closer than `th` to the previous input mass is merged
into `last` (mass averaged, abundance summed); otherwise `last` is emitted
and the peak starts a new output entry. -/
def clumpGo (th : ℚ) (prev : ℚ) (last : ℚ × ℚ) (acc : List (ℚ × ℚ)) :
    List (ℚ × ℚ) → List (ℚ × ℚ)
  | [] => acc ++ [last]
  | (m, p) :: rest =>
    if |m - prev| < th then clumpGo th m ((last.1 + m) / 2, last.2 + p) acc rest
    else clumpGo th m (m, p) (acc ++ [last]) rest

def clump (th : ℚ) : List (ℚ × ℚ) → List (ℚ × ℚ)
  | [] => []
  | p :: rest => clumpGo th p.1 p [] rest

/-- `calculate_isotopic_pattern` (lines 587-662), taking the isotopologue
enumeration produced by the pyteomics collaborator as an explicit input list
of (mass, abundance) pairs: sort by mass, normalize abundances by the first
(monoisotopic) one, and clump exactly when both `fast` and `high_res` are
false.  Returns (relative pattern, masses).  In Lean a division by a zero
monoisotopic abundance yields 0 where Python would raise; the mass component
is unaffected. -/
def calculate_isotopic_pattern (isotopologue : List (ℚ × ℚ)) (fast high_res : Bool) :
    List ℚ × List ℚ :=
  let arranged := List.insertionSort mzLE isotopologue
  let a0 := (arranged.headD (0, 1)).2
  let scaled := arranged.map (fun p => (p.1, p.2 / a0))
  if ¬high_res ∧ ¬fast then
    let lowres := clump (h_mass / 2) scaled
    (lowres.map Prod.snd, lowres.map Prod.fst)
  else (scaled.map Prod.snd, scaled.map Prod.fst)

/-! ## `gen_adducts_combo` -/

/-- Python `temp_dict[j] = s` when absent, `temp_dict[j] += s` when present
(the single entry with that key is updated in place). -/
def dinsertAdd (d : Dict) (k : String) (s : Int) : Dict :=
  match d with
  | [] => [(k, s)]
  | (k', v) :: rest => if k' = k then (k', v + s) :: rest else (k', v) :: dinsertAdd rest k s

/-- Build the signed count dict of one combination (lines 702-715): every
occurrence adds +1 for positive `max_charge`, -1 otherwise. -/
def comboToDict (max_charge : Int) (c : List String) : Dict :=
  c.foldl (fun d j => dinsertAdd d j (if 0 < max_charge then 1 else -1)) []

/-- All combination dicts, sizes 1 to `abs(max_charge)` (lines 697-715). -/
def adductCombos (adducts : Dict) (max_charge : Int) : List Dict :=
  let adducts_list := adducts.map Prod.fst
  (((List.range' 1 max_charge.natAbs).map (fun r => cwr r adducts_list)).flatten).map
    (comboToDict max_charge)

/-- The inner check `for j in i: if abs(i[j]) > abs(adducts[j]): ... break`;
`none` models the KeyError on a symbol missing from `adducts` (never reached:
combination keys come from `adducts`). -/
def violCheck (adducts : Dict) : Dict → Option Bool
  | [] => some false
  | (j, v) :: rest =>
    match dlookup adducts j with
    | none => none
    | some m => if |v| > |m| then some true else violCheck adducts rest

/-- Python `i in exclusions` (list membership by dict value equality). -/
def memEqv (i : Dict) (l : List Dict) : Bool := l.any (fun e => dictEqv i e)

/-- The `to_remove` construction (lines 716-723): a combination is appended
once when it exceeds a per-symbol maximum and *again* when it matches an
exclusion. -/
def buildToRemove (adducts : Dict) (exclusions : List Dict) (combos : List Dict) :
    Option (List Dict) :=
  combos.foldlM
    (fun acc i => (violCheck adducts i).map
      (fun b => acc ++ (if b then [i] else []) ++ (if memEqv i exclusions then [i] else [])))
    []

/-- Python `list.remove`: drop the first element equal (as a dict) to `t`;
`none` models the ValueError when no such element exists. -/
def removeFirst (t : Dict) : List Dict → Option (List Dict)
  | [] => none
  | x :: xs => if dictEqv x t then some xs else (removeFirst t xs).map (fun r => x :: r)

/-- The removal loop `for i in to_remove: adducts_combo_dict.remove(i)`. -/
def removeAll (l : List Dict) (ts : List Dict) : Option (List Dict) :=
  ts.foldlM (fun cur t => removeFirst t cur) l

/-- `gen_adducts_combo` (lines 664-726). -/
def gen_adducts_combo (adducts : Dict) (exclusions : List Dict) (max_charge : Int) :
    Option (List Dict) :=
  let combos := adductCombos adducts max_charge
  (buildToRemove adducts exclusions combos).bind (removeAll combos)

/-! ## Noise estimation and robust regression (SpectralStatistics) -/

/-- Python `min(list)` on a nonempty list (the code guards emptiness). -/
def pymin (l : List ℚ) : ℚ := l.foldl min (l.headD 0)

def pymax (l : List ℚ) : ℚ := l.foldl max (l.headD 0)

/-- Arithmetic mean (0 on the empty list, where numpy would warn). -/
def qmean (l : List ℚ) : ℚ := l.sum / l.length

/-- Population variance, the square of `numpy.std` with its default
`ddof = 0`. -/
def variancePop (l : List ℚ) : ℚ := (l.map (fun x => (x - qmean l) ^ 2)).sum / l.length

/-- `numpy.std`: the real square root of the population variance. -/
noncomputable def pystd (l : List ℚ) : ℝ := Real.sqrt ((variancePop l : ℚ) : ℝ)

/- Per-segment noise estimate (lines 270-284) on an already sorted segment:
2 standard deviations, unless the segment is empty (1.0) or the
"already denoised" guard fires, in which case the minimum (or 1.0 when the
minimum is 0) is used. -/
open Classical in
noncomputable def segmentNoise (j : List ℚ) : ℝ :=
  if j = [] then 1
  else
    let noise_threshold : ℝ := 2 * pystd j
    if (pymin j ≠ 0 ∧ noise_threshold > (pymin j : ℝ) * 5) ∨
        noise_threshold > (pymax j : ℝ) * 0.5 then
      (if pymin j ≠ 0 then ((pymin j : ℚ) : ℝ) else 1)
    else noise_threshold

/-- Result of `rt_noise_level_parameters_set`: a scalar in "whole" mode, a
(first quarter, last quarter, last mz) triple in "segments" mode. -/
inductive NoiseOut where
  | single (noise : ℝ)
  | triple (firstq lastq : ℝ) (lastMz : ℚ)

/-- `rt_noise_level_parameters_set` (lines 232-288).  `none` models the
NameError on an unknown mode and the IndexError of `mz_int[0][-1]` on an
empty mz list. -/
noncomputable def rt_noise_level_parameters_set (mzs ints : List ℚ) (mode : String) :
    Option NoiseOut :=
  if mode = "whole" then
    some (.single (segmentNoise (List.insertionSort (fun a b : ℚ => a ≤ b) ints)))
  else if mode = "segments" then
    let first_quarter_end := ints.length / 4
    let firstq := ints.take first_quarter_end
    let lastq := ints.drop (first_quarter_end * 3)
    match mzs.getLast? with
    | none => none
    | some last_mz =>
      some (.triple (segmentNoise (List.insertionSort (fun a b : ℚ => a ≤ b) firstq))
        (segmentNoise (List.insertionSort (fun a b : ℚ => a ≤ b) lastq)) last_mz)
  else none

/-- Ordinary least squares slope of `scipy.stats.linregress`. -/
def linreg_m (x y : List ℚ) : ℚ :=
  let xb := qmean x
  let yb := qmean y
  ((x.zip y).map (fun p => (p.1 - xb) * (p.2 - yb))).sum /
    ((x.map (fun a => (a - xb) ^ 2)).sum)

/-- Ordinary least squares intercept. -/
def linreg_b (x y : List ℚ) : ℚ := qmean y - linreg_m x y * qmean x

/-- The residual list `y - (m*x + b)` of `linear_regression`. -/
def residuals (x y : List ℚ) : List ℚ :=
  (x.zip y).map (fun p => p.2 - (linreg_m x y * p.1 + linreg_b x y))

/-- The outlier set `where(abs(residuals) > th * std(residuals))` of
`linear_regression` (lines 104-107), as a predicate on indices. -/
def linreg_outliers (x y : List ℚ) (th : ℚ) : Set ℕ :=
  fun i => |(((residuals x y).getD i 0 : ℚ) : ℝ)| > (th : ℝ) * pystd (residuals x y)

/-- `linear_regression` (lines 59-109): ValueError (`none`) on mismatched
lengths, degenerate answers for zero or one point, otherwise the OLS fit and
the outlier index set. -/
def linear_regression (x y : List ℚ) (th : ℚ) : Option (ℚ × ℚ × Set ℕ) :=
  if x.length ≠ y.length then none
  else if x.length = 0 then some (0, 0, fun _ => False)
  else if x.length = 1 then some (0, y.headD 0, fun _ => False)
  else some (linreg_m x y, linreg_b x y, linreg_outliers x y th)

/-! ## Theorems -/

/-- C10: `calculate_comp_from_mass 0` returns the sentinel: the initial atom
estimate `int(0/5)` is 0, the loop body never runs, and the empty composition
with mass 0 is returned. -/
theorem tagSearch_zero_returns_sentinel : calculate_comp_from_mass 0 = ([], 0) := by
  have h5 : ((0 : ℚ) / 5) = 0 := by norm_num
  unfold calculate_comp_from_mass
  rw [h5]
  decide

/-- C6 counterexample: in `"X-2Y3"` the numeric token after `Y` is *also*
negated (the `negative` flag is never reset), contradicting the claim that
only `X`'s count is negated. -/
theorem sticky_negation_cex :
    form_to_comp "X-2Y3" = some [("X", -2), ("Y", -3)] ∧ ((-3 : Int) ≠ 3) := by decide

/-- C2 counterexample: `"H1C2H-3"` parses to a dict with a positive count
after a negative one; formatting gives `"H-3C2"`, whose reparse flips the sign
of `C`, so the parse-format-parse round trip is not value-equal. -/
theorem roundtrip_cex :
    form_to_comp "H1C2H-3" = some [("H", -3), ("C", 2)] ∧
    comp_to_formula [("H", -3), ("C", 2)] = "H-3C2" ∧
    form_to_comp "H-3C2" = some [("H", -3), ("C", -2)] ∧
    dictEqv0 [("H", -3), ("C", -2)] [("H", -3), ("C", 2)] = false := by decide

/-- C3 counterexample: a combination that both exceeds a per-symbol maximum
and matches an exclusion is appended to `to_remove` twice; the second
`list.remove` raises (here: `none`), so `gen_adducts_combo` is not
error-free. -/
theorem gen_adducts_raises_cex :
    gen_adducts_combo [("H", 0)] [[("H", 1)]] 1 = none := by decide

/-- C9 counterexample: the in-place permethylation pass never touches the
`lS` (or `eS`) rows, so for the composition with one `lS` residue (a non-T
residue) a second permethylated call returns exactly the same C and H counts
as the first, not strictly larger ones. -/
theorem permethyl_lS_cex :
    glycan_to_atoms [("lS", 1)] true monosaccharides =
      some ([("C", 11), ("O", 7), ("N", 2), ("H", 18)], permethylStep monosaccharides) ∧
    glycan_to_atoms [("lS", 1)] true (permethylStep monosaccharides) =
      some ([("C", 11), ("O", 7), ("N", 2), ("H", 18)],
        permethylStep (permethylStep monosaccharides)) ∧
    ("lS" : String) ≠ "T" := by decide

/-! ### C4: the all-zero noise input -/

/-- Evaluation helper: on the all-zero list the population variance is 0. -/
lemma variancePop_zeros : variancePop [0, 0, 0, 0, 0] = 0 := by
  norm_num [variancePop, qmean]

lemma pystd_zeros : pystd [0, 0, 0, 0, 0] = 0 := by
  unfold pystd
  rw [variancePop_zeros]
  simp [Real.sqrt_zero]

lemma segmentNoise_zeros : segmentNoise [0, 0, 0, 0, 0] = 0 := by
  unfold segmentNoise
  rw [if_neg (by simp)]
  simp only [pystd_zeros, pymin, pymax, List.headD, List.foldl, min_self, max_self]
  norm_num

lemma rtnoise_zeros :
    rt_noise_level_parameters_set [] [0, 0, 0, 0, 0] "whole" = some (.single 0) := by
  have hsort : List.insertionSort (fun a b : ℚ => a ≤ b) [0, 0, 0, 0, 0] = [0, 0, 0, 0, 0] := by
    simp [List.insertionSort, List.orderedInsert]
  unfold rt_noise_level_parameters_set
  rw [if_pos rfl, hsort, segmentNoise_zeros]

/-- C4 amended: on the all-zero intensity list in "whole" mode the noise
estimate is 0.0 (the 2-sigma threshold), not 1.0: with min = max = std = 0
the "already denoised" guard `threshold > 0.5 * max` is `0 > 0`, false, so the
min==0 fallback is never reached. -/
theorem noise_all_zero_value :
    rt_noise_level_parameters_set [] [0, 0, 0, 0, 0] "whole" = some (.single 0) :=
  rtnoise_zeros

/-- C4 counterexample: the estimate on `[0,0,0,0,0]` in "whole" mode is not
1.0 as claimed. -/
theorem noise_all_zero_cex :
    rt_noise_level_parameters_set [] [0, 0, 0, 0, 0] "whole" ≠ some (.single 1) := by
  rw [rtnoise_zeros]
  simp [NoiseOut.single.injEq]

/-! ### C5: the leverage example for `linear_regression` -/

lemma residuals_ex :
    residuals [1, 2, 3, 4, 100] [1, 2, 3, 4, 1000] =
      [10440/761, 3420/761, -3600/761, -10620/761, 360/761] := by
  norm_num [residuals, linreg_m, linreg_b, qmean]

lemma variance_ex :
    variancePop [10440/761, 3420/761, -3600/761, -10620/761, 360/761] = 64800/761 := by
  norm_num [variancePop, qmean]

lemma sqrt_low : (4248/761 : ℝ) ≤ Real.sqrt (((64800/761 : ℚ) : ℝ)) := by
  apply Real.le_sqrt_of_sq_le
  push_cast
  norm_num

lemma pystd_ex :
    (10620 / 761 : ℝ) ≤
      (5/2 : ℚ) * pystd [10440/761, 3420/761, -3600/761, -10620/761, 360/761] := by
  unfold pystd
  rw [variance_ex]
  have h := sqrt_low
  push_cast
  linarith

/-- C5 amended: on x = [1,2,3,4,100], y = [1,2,3,4,1000] with threshold 2.5
*no* index is flagged: the fifth point has enormous leverage, so every
absolute residual (the largest is 10620/761, about 13.96) stays below
2.5 times the residual standard deviation (about 23.07). -/
theorem linreg_flags_no_outlier :
    ∀ i, i ∉ linreg_outliers [1, 2, 3, 4, 100] [1, 2, 3, 4, 1000] (5/2) := by
  intro i h
  unfold linreg_outliers at h
  rw [residuals_ex] at h
  simp only [Set.mem_def] at h
  have hb : |((([10440/761, 3420/761, -3600/761, -10620/761, 360/761] :
      List ℚ).getD i 0 : ℚ) : ℝ)| ≤ 10620 / 761 := by
    match i with
    | 0 => norm_num [List.getD, abs_le]
    | 1 => norm_num [List.getD, abs_le]
    | 2 => norm_num [List.getD, abs_le]
    | 3 => norm_num [List.getD, abs_le]
    | 4 => norm_num [List.getD, abs_le]
    | n + 5 =>
      simp only [List.getD]
      norm_num
  have hs := pystd_ex
  linarith [h, hb, hs]

/-- C5 counterexample: index 4 (the point (100, 1000)) is *not* flagged as an
outlier at threshold 2.5; `linear_regression` returns the OLS fit together
with this (empty at 4) outlier set. -/
theorem linreg_outlier_cex :
    linear_regression [1, 2, 3, 4, 100] [1, 2, 3, 4, 1000] (5/2) =
      some (linreg_m [1, 2, 3, 4, 100] [1, 2, 3, 4, 1000],
        linreg_b [1, 2, 3, 4, 100] [1, 2, 3, 4, 1000],
        linreg_outliers [1, 2, 3, 4, 100] [1, 2, 3, 4, 1000] (5/2)) ∧
    4 ∉ linreg_outliers [1, 2, 3, 4, 100] [1, 2, 3, 4, 1000] (5/2) := by
  constructor
  · simp [linear_regression]
  · intro h
    unfold linreg_outliers at h
    rw [residuals_ex] at h
    simp only [Set.mem_def] at h
    have hs := pystd_ex
    have hb : |((([10440/761, 3420/761, -3600/761, -10620/761, 360/761] :
        List ℚ).getD 4 0 : ℚ) : ℝ)| ≤ 10620 / 761 := by norm_num [List.getD, abs_le]
    linarith [h, hb, hs]

/-! ### C1: the clumping postcondition -/

/-- Separation relation on output peaks: masses at least `th` apart, in
order. -/
def sepBy (th : ℚ) (p q : ℚ × ℚ) : Prop := th ≤ q.1 - p.1

/-- Replacing the trailing peak of a separated list by one of larger or equal
mass keeps it separated. -/
lemma sepBy_replace_last (th : ℚ) (acc : List (ℚ × ℚ)) (x y : ℚ × ℚ) (hxy : x.1 ≤ y.1)
    (h : List.Chain' (sepBy th) (acc ++ [x])) : List.Chain' (sepBy th) (acc ++ [y]) := by
  rw [List.chain'_append] at h ⊢
  refine ⟨h.1, List.chain'_singleton y, ?_⟩
  intro a ha b hb
  simp only [List.head?_cons, Option.mem_def, Option.some.injEq] at hb
  subst hb
  have hx := h.2.2 a ha x (by simp)
  unfold sepBy at hx ⊢
  linarith

/-- Invariant proof for the clumping loop: if the remaining input masses are
sorted and bounded below by `prev`, the growing last peak has mass at most
`prev`, and the emitted prefix together with the last peak is `th`-separated,
then the final output is `th`-separated. -/
lemma clumpGo_chain (th : ℚ) :
    ∀ (l : List (ℚ × ℚ)) (prev : ℚ) (last : ℚ × ℚ) (acc : List (ℚ × ℚ)),
      List.Chain (fun a b : ℚ => a ≤ b) prev (l.map Prod.fst) →
      last.1 ≤ prev →
      List.Chain' (sepBy th) (acc ++ [last]) →
      List.Chain' (sepBy th) (clumpGo th prev last acc l) := by
  intro l
  induction l with
  | nil => intro prev last acc _ _ hacc; simpa [clumpGo] using hacc
  | cons hd tl ih =>
    intro prev last acc hchain hle hacc
    obtain ⟨m, p⟩ := hd
    rw [List.map_cons, List.chain_cons] at hchain
    obtain ⟨hpm, hchain'⟩ := hchain
    by_cases hmerge : |m - prev| < th
    · rw [clumpGo, if_pos hmerge]
      apply ih m ((last.1 + m) / 2, last.2 + p) acc hchain'
      · dsimp only
        linarith
      · exact sepBy_replace_last th acc last _ (by dsimp only; linarith) hacc
    · rw [clumpGo, if_neg hmerge]
      have hsep : th ≤ m - prev := by
        rw [abs_of_nonneg (by linarith)] at hmerge
        linarith [not_lt.mp hmerge]
      apply ih m (m, p) (acc ++ [last]) hchain' le_rfl
      apply hacc.append (List.chain'_singleton _)
      intro a ha b hb
      simp only [List.getLast?_concat, Option.mem_def, Option.some.injEq] at ha
      simp only [List.head?_cons, Option.mem_def, Option.some.injEq] at hb
      subst ha; subst hb
      unfold sepBy
      dsimp only
      linarith

/-- On an input sorted by mass, the clumped peak list is `th`-separated. -/
lemma clump_chain (th : ℚ) (l : List (ℚ × ℚ)) (hsort : List.Chain' mzLE l) :
    List.Chain' (sepBy th) (clump th l) := by
  cases l with
  | nil => simp [clump]
  | cons p rest =>
    have hchain : List.Chain (fun a b : ℚ => a ≤ b) p.1 (rest.map Prod.fst) := by
      have : List.Chain' (fun a b : ℚ => a ≤ b) ((p :: rest).map Prod.fst) := by
        rw [List.chain'_map]
        exact hsort
      simpa [List.map_cons] using this
    exact clumpGo_chain th rest p.1 p [] hchain le_rfl (List.chain'_singleton p)

/-- C1: for every isotopologue enumeration (hence for every atomic
composition), `calculate_isotopic_pattern` with `fast = false` and
`high_res = false` returns a mass list in which no two adjacent masses differ
by less than half the mass of a hydrogen-1 atom: each adjacent pair is at
least `h_mass / 2` apart.  (Peaks closer than that are merged with mass
averaged and abundance summed, per the definition of `clumpGo`.) -/
theorem isotopic_clump_separation (isotopologue : List (ℚ × ℚ)) :
    List.Chain' (fun a b : ℚ => h_mass / 2 ≤ b - a)
      (calculate_isotopic_pattern isotopologue false false).2 := by
  unfold calculate_isotopic_pattern
  rw [if_pos (by simp)]
  haveI : IsTotal (ℚ × ℚ) mzLE := ⟨fun a b => le_total a.1 b.1⟩
  haveI : IsTrans (ℚ × ℚ) mzLE := ⟨fun a b c hab hbc => le_trans hab hbc⟩
  have hsorted : List.Chain' mzLE (List.insertionSort mzLE isotopologue) :=
    (List.sorted_insertionSort mzLE isotopologue).chain'
  have hscaled : List.Chain' mzLE
      ((List.insertionSort mzLE isotopologue).map
        (fun p => (p.1, p.2 / ((List.insertionSort mzLE isotopologue).headD (0, 1)).2))) := by
    rw [List.chain'_map]
    exact hsorted
  have hout := clump_chain (h_mass / 2) _ hscaled
  dsimp only
  rw [List.chain'_map]
  exact hout

/-! ### Dict algebra lemmas for the adduct generator -/

/-- Key list of a dict. -/
def dkeys (d : Dict) : List String := d.map Prod.fst

/-- Total absolute count of a dict. -/
def absSum (d : Dict) : Nat := (d.map (fun p => p.2.natAbs)).sum

lemma dlookup_isSome_of_mem_keys (d : Dict) (k : String) (h : k ∈ dkeys d) :
    (dlookup d k).isSome = true := by
  induction d with
  | nil => simp [dkeys] at h
  | cons p rest ih =>
    rw [dlookup]
    by_cases hk : p.1 = k
    · simp [hk]
    · rw [if_neg hk]
      apply ih
      simp only [dkeys, List.map_cons, List.mem_cons] at h
      rcases h with h | h
      · exact absurd h.symm hk
      · exact h

lemma mem_of_dlookup_eq_some (d : Dict) (k : String) (v : Int) (h : dlookup d k = some v) :
    (k, v) ∈ d := by
  induction d with
  | nil => simp [dlookup] at h
  | cons p rest ih =>
    rw [dlookup] at h
    by_cases hk : p.1 = k
    · rw [if_pos hk] at h
      obtain ⟨k', v'⟩ := p
      simp only at hk h
      injection h with h2
      subst hk
      subst h2
      exact List.mem_cons_self _ _
    · rw [if_neg hk] at h
      exact List.mem_cons_of_mem _ (ih h)

lemma dlookup_eq_some_of_mem_nodup (d : Dict) (p : String × Int)
    (hnd : (dkeys d).Nodup) (hp : p ∈ d) : dlookup d p.1 = some p.2 := by
  induction d with
  | nil => simp at hp
  | cons q rest ih =>
    simp only [dkeys, List.map_cons, List.nodup_cons] at hnd
    rcases List.mem_cons.mp hp with h | h
    · subst h
      rw [dlookup, if_pos rfl]
    · rw [dlookup]
      by_cases hk : q.1 = p.1
      · exact absurd (hk ▸ List.mem_map_of_mem Prod.fst h) hnd.1
      · rw [if_neg hk]
        exact ih hnd.2 h

lemma dictEqv_mem (a b : Dict) (p : String × Int) (h : dictEqv a b = true) (hp : p ∈ a) :
    dlookup b p.1 = some p.2 := by
  unfold dictEqv at h
  rw [Bool.and_eq_true, List.all_eq_true, List.all_eq_true] at h
  exact of_decide_eq_true (h.1 p hp)

lemma dictEqv_symm (a b : Dict) : dictEqv a b = dictEqv b a := by
  unfold dictEqv
  rw [Bool.and_comm]

lemma dictEqv_refl (a : Dict) (h : (dkeys a).Nodup) : dictEqv a a = true := by
  unfold dictEqv
  rw [Bool.and_self, List.all_eq_true]
  intro p hp
  exact decide_eq_true (dlookup_eq_some_of_mem_nodup a p h hp)

lemma dictEqv_trans (a b c : Dict) (hab : dictEqv a b = true) (hbc : dictEqv b c = true) :
    dictEqv a c = true := by
  unfold dictEqv
  rw [Bool.and_eq_true, List.all_eq_true, List.all_eq_true]
  constructor
  · intro p hp
    have h1 := dictEqv_mem a b p hab hp
    have h2 := dictEqv_mem b c _ hbc (mem_of_dlookup_eq_some b p.1 p.2 h1)
    exact decide_eq_true h2
  · intro p hp
    have h1 := dictEqv_mem c b p (dictEqv_symm c b ▸ hbc) hp
    have h2 := dictEqv_mem b a _ (dictEqv_symm b a ▸ hab) (mem_of_dlookup_eq_some b p.1 p.2 h1)
    exact decide_eq_true h2

/-! ### Combination enumeration lemmas -/

lemma cwr_mem : ∀ (n : Nat) (l : List String) (c : List String), c ∈ cwr n l →
    c.length = n ∧ ∀ x ∈ c, x ∈ l := by
  intro n
  induction n with
  | zero =>
    intro l c hc
    simp only [cwr, List.mem_singleton] at hc
    subst hc
    simp
  | succ n ih =>
    intro l
    induction l with
    | nil => intro c hc; simp [cwr, cwrAux] at hc
    | cons x xs ihl =>
      intro c hc
      rw [show cwr (n + 1) (x :: xs) =
        ((cwr n (x :: xs)).map (fun c => x :: c)) ++ cwrAux (cwr n) xs from rfl] at hc
      rcases List.mem_append.mp hc with h | h
      · obtain ⟨c', hc', rfl⟩ := List.mem_map.mp h
        obtain ⟨hlen, hmem⟩ := ih (x :: xs) c' hc'
        refine ⟨by simp [hlen], ?_⟩
        intro y hy
        rcases List.mem_cons.mp hy with h | h
        · simp [h]
        · exact hmem y h
      · have hres := ihl c h
        exact ⟨hres.1, fun y hy => List.mem_cons_of_mem x (hres.2 y hy)⟩

/-- Uniform-sign dicts: every count has the sign of `s` (for `s = 1` or
`s = -1`). -/
def SignedDict (s : Int) (d : Dict) : Prop := ∀ p ∈ d, 1 ≤ s * p.2

lemma dkeys_dinsertAdd (d : Dict) (k : String) (s : Int) :
    dkeys (dinsertAdd d k s) = if k ∈ dkeys d then dkeys d else dkeys d ++ [k] := by
  induction d with
  | nil => simp [dinsertAdd, dkeys]
  | cons p rest ih =>
    rw [dinsertAdd]
    by_cases hk : p.1 = k
    · subst hk
      simp [dkeys]
    · rw [if_neg hk]
      simp only [dkeys, List.map_cons] at ih ⊢
      rw [ih]
      by_cases hm : k ∈ List.map Prod.fst rest
      · rw [if_pos hm, if_pos (by simp [hm])]
      · rw [if_neg hm, if_neg ?hnot, List.cons_append]
        case hnot =>
          simp only [List.mem_cons, not_or]
          exact ⟨fun h => hk h.symm, hm⟩

lemma nodup_dinsertAdd (d : Dict) (k : String) (s : Int) (h : (dkeys d).Nodup) :
    (dkeys (dinsertAdd d k s)).Nodup := by
  rw [dkeys_dinsertAdd]
  by_cases hm : k ∈ dkeys d
  · rwa [if_pos hm]
  · rw [if_neg hm]
    rw [List.nodup_append]
    exact ⟨h, List.nodup_singleton k, fun x hx hxk => hm ((List.mem_singleton.mp hxk) ▸ hx)⟩

lemma mem_keys_dinsertAdd (d : Dict) (k k' : String) (s : Int)
    (h : k' ∈ dkeys (dinsertAdd d k s)) : k' ∈ dkeys d ∨ k' = k := by
  rw [dkeys_dinsertAdd] at h
  by_cases hm : k ∈ dkeys d
  · rw [if_pos hm] at h; exact Or.inl h
  · rw [if_neg hm] at h
    rcases List.mem_append.mp h with h | h
    · exact Or.inl h
    · exact Or.inr (List.mem_singleton.mp h)

lemma signed_dinsertAdd (k : String) (s : Int) (hs : s = 1 ∨ s = -1) :
    ∀ (d : Dict), SignedDict s d → SignedDict s (dinsertAdd d k s) := by
  intro d
  induction d with
  | nil =>
    intro _ p hp
    simp only [dinsertAdd, List.mem_singleton] at hp
    subst hp
    rcases hs with h1 | h1 <;> simp [h1]
  | cons q rest ih =>
    intro h
    rw [dinsertAdd]
    by_cases hk : q.1 = k
    · rw [if_pos hk]
      intro p hp
      rcases List.mem_cons.mp hp with h1 | h1
      · subst h1
        have hq := h q (List.mem_cons_self q rest)
        dsimp only
        have hss : s * s = 1 := by rcases hs with h1 | h1 <;> simp [h1]
        calc (1 : Int) ≤ s * q.2 + 1 := by linarith
        _ = s * q.2 + s * s := by rw [hss]
        _ = s * (q.2 + s) := by ring
      · exact h p (List.mem_cons_of_mem q h1)
    · rw [if_neg hk]
      intro p hp
      rcases List.mem_cons.mp hp with h1 | h1
      · subst h1; exact h _ (List.mem_cons_self _ _)
      · exact ih (fun r hr => h r (List.mem_cons_of_mem q hr)) p h1

lemma absSum_dinsertAdd (k : String) (s : Int) (hs : s = 1 ∨ s = -1) :
    ∀ (d : Dict), SignedDict s d → absSum (dinsertAdd d k s) = absSum d + 1 := by
  intro d
  induction d with
  | nil =>
    intro _
    simp only [dinsertAdd, absSum, List.map_cons, List.map_nil, List.sum_cons, List.sum_nil]
    rcases hs with h1 | h1 <;> simp [h1]
  | cons q rest ih =>
    intro h
    rw [dinsertAdd]
    by_cases hk : q.1 = k
    · rw [if_pos hk]
      have hq := h q (List.mem_cons_self q rest)
      simp only [absSum, List.map_cons, List.sum_cons]
      have : (q.2 + s).natAbs = q.2.natAbs + 1 := by
        rcases hs with h1 | h1 <;> subst h1 <;> omega
      omega
    · rw [if_neg hk]
      simp only [absSum, List.map_cons, List.sum_cons] at ih ⊢
      rw [ih (fun p hp => h p (List.mem_cons_of_mem q hp))]
      omega

lemma comboFold_spec (s : Int) (hs : s = 1 ∨ s = -1) :
    ∀ (c : List String) (d : Dict), SignedDict s d → (dkeys d).Nodup →
      SignedDict s (c.foldl (fun d j => dinsertAdd d j s) d) ∧
      (dkeys (c.foldl (fun d j => dinsertAdd d j s) d)).Nodup ∧
      absSum (c.foldl (fun d j => dinsertAdd d j s) d) = absSum d + c.length ∧
      (∀ k ∈ dkeys (c.foldl (fun d j => dinsertAdd d j s) d), k ∈ dkeys d ∨ k ∈ c) := by
  intro c
  induction c with
  | nil => intro d hsd hnd; exact ⟨hsd, hnd, by simp, fun k hk => Or.inl hk⟩
  | cons j rest ih =>
    intro d hsd hnd
    rw [List.foldl_cons]
    obtain ⟨h1, h2, h3, h4⟩ := ih (dinsertAdd d j s) (signed_dinsertAdd j s hs d hsd)
      (nodup_dinsertAdd d j s hnd)
    refine ⟨h1, h2, ?_, ?_⟩
    · rw [h3, absSum_dinsertAdd j s hs d hsd]
      simp [Nat.add_assoc, Nat.add_comm 1]
    · intro k hk
      rcases h4 k hk with h | h
      · rcases mem_keys_dinsertAdd d j k s h with h' | h'
        · exact Or.inl h'
        · exact Or.inr (h' ▸ List.mem_cons_self j rest)
      · exact Or.inr (List.mem_cons_of_mem j h)

lemma comboToDict_spec (mc : Int) (c : List String) :
    SignedDict (if 0 < mc then 1 else -1) (comboToDict mc c) ∧
    (dkeys (comboToDict mc c)).Nodup ∧
    absSum (comboToDict mc c) = c.length ∧
    (∀ k ∈ dkeys (comboToDict mc c), k ∈ c) := by
  have hs : (if 0 < mc then (1 : Int) else -1) = 1 ∨ (if 0 < mc then (1 : Int) else -1) = -1 := by
    by_cases h : 0 < mc
    · exact Or.inl (if_pos h)
    · exact Or.inr (if_neg h)
  obtain ⟨h1, h2, h3, h4⟩ := comboFold_spec _ hs c [] (fun p hp => by simp at hp) (by simp [dkeys])
  refine ⟨h1, h2, by simpa [absSum] using h3, ?_⟩
  intro k hk
  rcases h4 k hk with h | h
  · simp [dkeys] at h
  · exact h

lemma adductCombos_spec (a : Dict) (mc : Int) (x : Dict) (hx : x ∈ adductCombos a mc) :
    (dkeys x).Nodup ∧ (∀ k ∈ dkeys x, k ∈ dkeys a) ∧
    1 ≤ absSum x ∧ absSum x ≤ mc.natAbs := by
  unfold adductCombos at hx
  obtain ⟨c, hc, rfl⟩ := List.mem_map.mp hx
  obtain ⟨L, hL, hcL⟩ := List.mem_flatten.mp hc
  obtain ⟨r, hr, rfl⟩ := List.mem_map.mp hL
  rw [List.mem_range'_1] at hr
  obtain ⟨hlen, hmem⟩ := cwr_mem r (a.map Prod.fst) c hcL
  obtain ⟨h1, h2, h3, h4⟩ := comboToDict_spec mc c
  refine ⟨h2, ?_, ?_, ?_⟩
  · intro k hk
    exact hmem k (h4 k hk)
  · rw [h3, hlen]; exact hr.1
  · rw [h3, hlen]; omega

/-! ### Violation check lemmas -/

/-- A combination exceeding a declared per-symbol maximum. -/
def Viol (a x : Dict) : Prop := ∃ p ∈ x, ∃ m, dlookup a p.1 = some m ∧ |m| < |p.2|

lemma violCheck_isSome (a : Dict) :
    ∀ (x : Dict), (∀ p ∈ x, (dlookup a p.1).isSome = true) → (violCheck a x).isSome = true := by
  intro x
  induction x with
  | nil => intro _; simp [violCheck]
  | cons p rest ih =>
    intro hk
    obtain ⟨j, v⟩ := p
    have := hk (j, v) (List.mem_cons_self _ _)
    rw [violCheck]
    match hm : dlookup a j with
    | none => rw [hm] at this; simp at this
    | some m =>
      dsimp only
      by_cases hv : |v| > |m|
      · rw [if_pos hv]; rfl
      · rw [if_neg hv]
        exact ih (fun q hq => hk q (List.mem_cons_of_mem _ hq))

lemma violCheck_true_iff (a : Dict) :
    ∀ (x : Dict), (∀ p ∈ x, (dlookup a p.1).isSome = true) →
      (violCheck a x = some true ↔ Viol a x) := by
  intro x
  induction x with
  | nil =>
    intro _
    simp only [violCheck, Option.some.injEq, Bool.false_eq_true, Viol]
    simp
  | cons p rest ih =>
    intro hk
    obtain ⟨j, v⟩ := p
    have hsome := hk (j, v) (List.mem_cons_self _ _)
    rw [violCheck]
    match hm : dlookup a j with
    | none => rw [hm] at hsome; simp at hsome
    | some m =>
      dsimp only
      by_cases hv : |v| > |m|
      · rw [if_pos hv]
        simp only [true_iff]
        exact ⟨(j, v), List.mem_cons_self _ _, m, hm, hv⟩
      · rw [if_neg hv]
        rw [ih (fun q hq => hk q (List.mem_cons_of_mem _ hq))]
        constructor
        · intro ⟨q, hq, m', hm', hlt⟩
          exact ⟨q, List.mem_cons_of_mem _ hq, m', hm', hlt⟩
        · intro ⟨q, hq, m', hm', hlt⟩
          rcases List.mem_cons.mp hq with rfl | hq'
          · rw [hm] at hm'
            injection hm' with h2
            subst h2
            exact absurd hlt hv
          · exact ⟨q, hq', m', hm', hlt⟩

/-- Violation respects dict value equality. -/
lemma viol_congr (a x y : Dict) (hxy : dictEqv x y = true) (h : Viol a x) : Viol a y := by
  obtain ⟨p, hp, m, hm, hlt⟩ := h
  have := dictEqv_mem x y p hxy hp
  exact ⟨(p.1, p.2), mem_of_dlookup_eq_some y p.1 p.2 this, m, hm, hlt⟩

/-! ### Removal loop lemmas -/

/-- Number of elements of `l` value-equal to `z`. -/
def cnt (z : Dict) (l : List Dict) : Nat := l.countP (fun y => dictEqv z y)

lemma cnt_nil (z : Dict) : cnt z [] = 0 := rfl

lemma cnt_cons (z x : Dict) (l : List Dict) :
    cnt z (x :: l) = cnt z l + (if dictEqv z x = true then 1 else 0) := by
  unfold cnt
  rw [List.countP_cons]

lemma cnt_append (z : Dict) (l1 l2 : List Dict) :
    cnt z (l1 ++ l2) = cnt z l1 + cnt z l2 := by
  unfold cnt
  rw [List.countP_append]

lemma removeFirst_eq_some (t : Dict) :
    ∀ (l r : List Dict), removeFirst t l = some r →
      ∃ l1 x0 l2, l = l1 ++ x0 :: l2 ∧ dictEqv x0 t = true ∧
        (∀ x ∈ l1, dictEqv x t = false) ∧ r = l1 ++ l2 := by
  intro l
  induction l with
  | nil => intro r hr; simp [removeFirst] at hr
  | cons x xs ih =>
    intro r hr
    rw [removeFirst] at hr
    by_cases hx : dictEqv x t = true
    · rw [if_pos hx] at hr
      injection hr with hr
      exact ⟨[], x, xs, by simp, hx, by simp, hr.symm⟩
    · rw [if_neg hx] at hr
      match hrec : removeFirst t xs with
      | none => rw [hrec] at hr; simp at hr
      | some r' =>
        rw [hrec] at hr
        simp only [Option.map_some', Option.some.injEq] at hr
        obtain ⟨l1, x0, l2, heq, hx0, hl1, hr'⟩ := ih r' hrec
        refine ⟨x :: l1, x0, l2, by rw [heq, List.cons_append], hx0, ?_, ?_⟩
        · intro y hy
          rcases List.mem_cons.mp hy with rfl | hy'
          · exact Bool.eq_false_iff.mpr hx
          · exact hl1 y hy'
        · rw [← hr, hr', List.cons_append]

lemma removeFirst_isSome (t : Dict) :
    ∀ (l : List Dict), (∃ x ∈ l, dictEqv x t = true) → (removeFirst t l).isSome = true := by
  intro l
  induction l with
  | nil => intro ⟨x, hx, _⟩; simp at hx
  | cons y ys ih =>
    intro ⟨x, hx, hxt⟩
    rw [removeFirst]
    by_cases hy : dictEqv y t = true
    · rw [if_pos hy]; rfl
    · rw [if_neg hy]
      rcases List.mem_cons.mp hx with rfl | hx'
      · exact absurd hxt hy
      · have := ih ⟨x, hx', hxt⟩
        match hrec : removeFirst t ys with
        | none => rw [hrec] at this; simp at this
        | some r => rfl

lemma removeAll_sublist :
    ∀ (ts l r : List Dict), removeAll l ts = some r → r.Sublist l := by
  intro ts
  induction ts with
  | nil =>
    intro l r h
    simp only [removeAll, List.foldlM_nil, Option.pure_def, Option.some.injEq] at h
    subst h
    exact List.Sublist.refl _
  | cons t ts' ih =>
    intro l r h
    rw [removeAll, List.foldlM_cons] at h
    match hrf : removeFirst t l with
    | none => rw [hrf] at h; simp at h
    | some l' =>
      rw [hrf] at h
      obtain ⟨l1, x0, l2, heq, _, _, hl'⟩ := removeFirst_eq_some t l l' hrf
      have hsub : l'.Sublist l := by
        rw [heq, hl']
        exact List.Sublist.append_left (List.sublist_cons_self x0 l2) l1
      exact (ih l' r h).trans hsub

lemma removeAll_count :
    ∀ (ts l r : List Dict), removeAll l ts = some r →
      ∀ z, cnt z r + cnt z ts = cnt z l := by
  intro ts
  induction ts with
  | nil =>
    intro l r h z
    simp only [removeAll, List.foldlM_nil, Option.pure_def, Option.some.injEq] at h
    subst h
    simp [cnt_nil]
  | cons t ts' ih =>
    intro l r h z
    rw [removeAll, List.foldlM_cons] at h
    match hrf : removeFirst t l with
    | none => rw [hrf] at h; simp at h
    | some l' =>
      rw [hrf] at h
      simp only [Option.bind_eq_bind, Option.some_bind] at h
      obtain ⟨l1, x0, l2, heq, hx0, _, hl'⟩ := removeFirst_eq_some t l l' hrf
      have hrec : cnt z r + cnt z ts' = cnt z l' := ih l' r h z
      subst heq
      subst hl'
      rw [cnt_append] at hrec
      rw [cnt_append, cnt_cons, cnt_cons]
      by_cases hz : dictEqv z t = true
      · have hzx : dictEqv z x0 = true :=
          dictEqv_trans z t x0 hz (dictEqv_symm x0 t ▸ hx0)
        rw [if_pos hz, if_pos hzx]
        omega
      · have hzx : ¬dictEqv z x0 = true := fun hzx => hz (dictEqv_trans z x0 t hzx hx0)
        rw [if_neg hz, if_neg hzx]
        omega

lemma removeAll_isSome :
    ∀ (ts l : List Dict), (∀ z, cnt z ts ≤ cnt z l) → (∀ t ∈ ts, dictEqv t t = true) →
      (removeAll l ts).isSome = true := by
  intro ts
  induction ts with
  | nil => intro l _ _; rw [removeAll, List.foldlM_nil]; rfl
  | cons t ts' ih =>
    intro l hc hrefl
    rw [removeAll, List.foldlM_cons]
    have ht1 : 1 ≤ cnt t (t :: ts') := by
      rw [cnt_cons, if_pos (hrefl t (List.mem_cons_self t ts'))]
      omega
    have htl : 0 < cnt t l := lt_of_lt_of_le ht1 (hc t)
    have hex : ∃ x ∈ l, dictEqv x t = true := by
      obtain ⟨x, hx, hxt⟩ := List.countP_pos_iff.mp htl
      exact ⟨x, hx, dictEqv_symm t x ▸ hxt⟩
    have hsome := removeFirst_isSome t l hex
    match hrf : removeFirst t l with
    | none => rw [hrf] at hsome; simp at hsome
    | some l' =>
      simp only [Option.bind_eq_bind, Option.some_bind]
      obtain ⟨l1, x0, l2, heq, hx0, _, hl'⟩ := removeFirst_eq_some t l l' hrf
      have hres := ih l' ?hcount ?hrefl'
      case hrefl' => exact fun t' ht' => hrefl t' (List.mem_cons_of_mem t ht')
      case hcount =>
        intro z
        have hcz := hc z
        subst heq
        subst hl'
        rw [cnt_cons, cnt_append, cnt_cons] at hcz
        rw [cnt_append]
        by_cases hz : dictEqv z t = true
        · have hzx : dictEqv z x0 = true :=
            dictEqv_trans z t x0 hz (dictEqv_symm x0 t ▸ hx0)
          rw [if_pos hz, if_pos hzx] at hcz
          omega
        · have hzx : ¬dictEqv z x0 = true := fun hzx => hz (dictEqv_trans z x0 t hzx hx0)
          rw [if_neg hz, if_neg hzx] at hcz
          omega
      rwa [removeAll] at hres

/-! ### `to_remove` construction lemmas -/

lemma buildToRemove_go_some (a : Dict) (e : List Dict) :
    ∀ (l : List Dict), (∀ i ∈ l, (violCheck a i).isSome = true) → ∀ (acc : List Dict),
      (l.foldlM
        (fun acc i => (violCheck a i).map
          (fun b => acc ++ (if b then [i] else []) ++ (if memEqv i e then [i] else [])))
        acc).isSome = true := by
  intro l
  induction l with
  | nil => intro _ acc; rw [List.foldlM_nil]; rfl
  | cons i rest ih =>
    intro hv acc
    rw [List.foldlM_cons]
    have hi := hv i (List.mem_cons_self i rest)
    match hvc : violCheck a i with
    | none => rw [hvc] at hi; simp at hi
    | some b =>
      simp only [Option.map_some', Option.bind_eq_bind, Option.some_bind]
      exact ih (fun j hj => hv j (List.mem_cons_of_mem i hj)) _

lemma buildToRemove_go_mem (a : Dict) (e : List Dict) :
    ∀ (l acc tr : List Dict),
      l.foldlM
        (fun acc i => (violCheck a i).map
          (fun b => acc ++ (if b then [i] else []) ++ (if memEqv i e then [i] else [])))
        acc = some tr →
      ∀ x ∈ tr, x ∈ acc ∨ x ∈ l := by
  intro l
  induction l with
  | nil =>
    intro acc tr h x hx
    rw [List.foldlM_nil] at h
    simp only [Option.pure_def, Option.some.injEq] at h
    subst h
    exact Or.inl hx
  | cons i rest ih =>
    intro acc tr h x hx
    rw [List.foldlM_cons] at h
    match hvc : violCheck a i with
    | none => rw [hvc] at h; simp at h
    | some b =>
      rw [hvc] at h
      simp only [Option.map_some', Option.bind_eq_bind, Option.some_bind] at h
      rcases ih _ tr h x hx with hacc | hrest
      · rcases List.mem_append.mp hacc with h1 | h1
        · rcases List.mem_append.mp h1 with h2 | h2
          · exact Or.inl h2
          · have : x = i := by
              by_cases hb : b = true
              · rw [if_pos hb] at h2; exact List.mem_singleton.mp h2
              · rw [if_neg hb] at h2; simp at h2
            exact Or.inr (this ▸ List.mem_cons_self i rest)
        · have : x = i := by
            by_cases hb : memEqv i e = true
            · rw [if_pos hb] at h1; exact List.mem_singleton.mp h1
            · rw [if_neg hb] at h1; simp at h1
          exact Or.inr (this ▸ List.mem_cons_self i rest)
      · exact Or.inr (List.mem_cons_of_mem i hrest)

lemma buildToRemove_go_ge (a : Dict) (e : List Dict) (z : Dict) :
    ∀ (l acc tr : List Dict),
      l.foldlM
        (fun acc i => (violCheck a i).map
          (fun b => acc ++ (if b then [i] else []) ++ (if memEqv i e then [i] else [])))
        acc = some tr →
      (∀ y ∈ l, dictEqv z y = true → violCheck a y = some true) →
      cnt z acc + cnt z l ≤ cnt z tr := by
  intro l
  induction l with
  | nil =>
    intro acc tr h _
    rw [List.foldlM_nil] at h
    simp only [Option.pure_def, Option.some.injEq] at h
    subst h
    simp [cnt_nil]
  | cons i rest ih =>
    intro acc tr h hz
    rw [List.foldlM_cons] at h
    match hvc : violCheck a i with
    | none => rw [hvc] at h; simp at h
    | some b =>
      rw [hvc] at h
      simp only [Option.map_some', Option.bind_eq_bind, Option.some_bind] at h
      have hrec := ih _ tr h (fun y hy => hz y (List.mem_cons_of_mem i hy))
      rw [cnt_append, cnt_append] at hrec
      rw [cnt_cons]
      by_cases hzi : dictEqv z i = true
      · have hb : b = true := by
          have := hz i (List.mem_cons_self i rest) hzi
          rw [hvc] at this
          injection this
        rw [hb, if_pos rfl] at hrec
        have h1 : cnt z [i] = 1 := by rw [cnt_cons, cnt_nil, if_pos hzi]
        rw [h1] at hrec
        rw [if_pos hzi]
        omega
      · have h1 : cnt z (if b = true then [i] else []) = 0 := by
          by_cases hb : b = true
          · rw [if_pos hb, cnt_cons, cnt_nil, if_neg hzi]
          · rw [if_neg hb, cnt_nil]
        have h2 : cnt z (if memEqv i e = true then [i] else []) = 0 := by
          by_cases hb : memEqv i e = true
          · rw [if_pos hb, cnt_cons, cnt_nil, if_neg hzi]
          · rw [if_neg hb, cnt_nil]
        rw [h1, h2] at hrec
        rw [if_neg hzi]
        omega

lemma buildToRemove_go_le (a : Dict) (e : List Dict) (z : Dict) :
    ∀ (l acc tr : List Dict),
      l.foldlM
        (fun acc i => (violCheck a i).map
          (fun b => acc ++ (if b then [i] else []) ++ (if memEqv i e then [i] else [])))
        acc = some tr →
      (∀ i ∈ l, ¬(violCheck a i = some true ∧ memEqv i e = true)) →
      cnt z tr ≤ cnt z acc + cnt z l := by
  intro l
  induction l with
  | nil =>
    intro acc tr h _
    rw [List.foldlM_nil] at h
    simp only [Option.pure_def, Option.some.injEq] at h
    subst h
    simp [cnt_nil]
  | cons i rest ih =>
    intro acc tr h hcl
    rw [List.foldlM_cons] at h
    match hvc : violCheck a i with
    | none => rw [hvc] at h; simp at h
    | some b =>
      rw [hvc] at h
      simp only [Option.map_some', Option.bind_eq_bind, Option.some_bind] at h
      have hrec := ih _ tr h (fun j hj => hcl j (List.mem_cons_of_mem i hj))
      rw [cnt_append, cnt_append] at hrec
      rw [cnt_cons]
      have hsum : cnt z (if b = true then [i] else []) +
          cnt z (if memEqv i e = true then [i] else []) ≤
          (if dictEqv z i = true then 1 else 0) := by
        by_cases hb : b = true
        · have hme : ¬memEqv i e = true := by
            intro hme
            exact hcl i (List.mem_cons_self i rest) ⟨by rw [hvc, hb], hme⟩
          rw [if_pos hb, if_neg hme, cnt_nil, cnt_cons, cnt_nil]
          omega
        · rw [if_neg hb, cnt_nil]
          by_cases hme : memEqv i e = true
          · rw [if_pos hme, cnt_cons, cnt_nil]
            omega
          · rw [if_neg hme, cnt_nil]
            omega
      omega

/-- Bounds promised for every returned adduct combination: per-symbol counts
within the declared maxima, and total absolute count between 1 and the
absolute maximum charge. -/
def genBoundsOk (a : Dict) (mc : Int) (res : List Dict) : Prop :=
  ∀ x ∈ res, (∀ p ∈ x, ∃ m, dlookup a p.1 = some m ∧ |p.2| ≤ |m|) ∧
    1 ≤ absSum x ∧ absSum x ≤ mc.natAbs

/-- C7: whenever `gen_adducts_combo` returns a list (raises no error), every
returned combination respects the per-symbol maxima of the adduct spec and
has total absolute count between 1 and `abs(max_charge)`; for
`max_charge = 0` the returned list is empty. -/
theorem gen_adducts_combo_bounds (a : Dict) (e : List Dict) (mc : Int) (res : List Dict)
    (h : gen_adducts_combo a e mc = some res) :
    genBoundsOk a mc res ∧ (mc = 0 → res = []) := by
  have h' : (buildToRemove a e (adductCombos a mc)).bind
      (removeAll (adductCombos a mc)) = some res := h
  match htr : buildToRemove a e (adductCombos a mc) with
  | none => rw [htr] at h'; simp at h'
  | some tr =>
    rw [htr] at h'
    have h2 : removeAll (adductCombos a mc) tr = some res := h'
    constructor
    · intro x hx
      have hxc : x ∈ adductCombos a mc := (removeAll_sublist tr _ res h2).subset hx
      obtain ⟨hnd, hkeys, habs1, habs2⟩ := adductCombos_spec a mc x hxc
      refine ⟨?_, habs1, habs2⟩
      intro p hp
      have hkm : p.1 ∈ dkeys a := hkeys p.1 (List.mem_map_of_mem Prod.fst hp)
      have hs := dlookup_isSome_of_mem_keys a p.1 hkm
      match hm : dlookup a p.1 with
      | none => rw [hm] at hs; simp at hs
      | some m =>
        refine ⟨m, rfl, ?_⟩
        by_contra hlt
        push_neg at hlt
        have hviol : Viol a x := ⟨p, hp, m, hm, hlt⟩
        have hge := buildToRemove_go_ge a e x (adductCombos a mc) [] tr htr ?hyp
        case hyp =>
          intro y hy hxy
          have hvy : Viol a y := viol_congr a x y hxy hviol
          have hky : ∀ q ∈ y, (dlookup a q.1).isSome = true := by
            intro q hq
            obtain ⟨_, hkeys', _, _⟩ := adductCombos_spec a mc y hy
            exact dlookup_isSome_of_mem_keys a q.1 (hkeys' q.1 (List.mem_map_of_mem Prod.fst hq))
          exact (violCheck_true_iff a y hky).mpr hvy
        have hcc := removeAll_count tr _ res h2 x
        have hone : 0 < cnt x res :=
          List.countP_pos_iff.mpr ⟨x, hx, dictEqv_refl x hnd⟩
        rw [cnt_nil] at hge
        omega
    · intro hmc
      subst hmc
      have hcz : adductCombos a 0 = [] := rfl
      have htr0 := htr
      rw [hcz] at htr0
      simp only [buildToRemove, List.foldlM_nil, Option.pure_def, Option.some.injEq] at htr0
      subst htr0
      rw [hcz] at h2
      simp only [removeAll, List.foldlM_nil, Option.pure_def, Option.some.injEq] at h2
      exact h2.symm

/-- C7 witness at the adduct spec with H max 3 and Na max 1, charge 3. -/
theorem gen_adducts_combo_bounds_witness :
    gen_adducts_combo [("H", 3), ("Na", 1)] [] 3 =
      some [[("H", 1)], [("Na", 1)], [("H", 2)], [("H", 1), ("Na", 1)],
        [("H", 3)], [("H", 2), ("Na", 1)]] ∧
    genBoundsOk [("H", 3), ("Na", 1)] 3
      [[("H", 1)], [("Na", 1)], [("H", 2)], [("H", 1), ("Na", 1)],
        [("H", 3)], [("H", 2), ("Na", 1)]] ∧
    ((3 : Int) = 0 →
      ([[("H", 1)], [("Na", 1)], [("H", 2)], [("H", 1), ("Na", 1)],
        [("H", 3)], [("H", 2), ("Na", 1)]] : List Dict) = []) :=
  ⟨by decide, gen_adducts_combo_bounds [("H", 3), ("Na", 1)] [] 3 _ (by decide)⟩

/-- C3 amended: `gen_adducts_combo` raises no error *provided* no generated
combination both exceeds a per-symbol maximum and matches an exclusion; a
combination doing both is appended to `to_remove` twice and the second
`remove` raises (see the counterexample). -/
theorem gen_adducts_combo_no_error (a : Dict) (e : List Dict) (mc : Int)
    (h : ∀ i ∈ adductCombos a mc, ¬(violCheck a i = some true ∧ memEqv i e = true)) :
    (gen_adducts_combo a e mc).isSome = true := by
  have hvs : ∀ i ∈ adductCombos a mc, (violCheck a i).isSome = true := by
    intro i hi
    obtain ⟨_, hkeys, _, _⟩ := adductCombos_spec a mc i hi
    apply violCheck_isSome
    intro p hp
    exact dlookup_isSome_of_mem_keys a p.1 (hkeys p.1 (List.mem_map_of_mem Prod.fst hp))
  have hbs' : (buildToRemove a e (adductCombos a mc)).isSome = true :=
    buildToRemove_go_some a e (adductCombos a mc) hvs []
  match htr : buildToRemove a e (adductCombos a mc) with
  | none => rw [htr] at hbs'; simp at hbs'
  | some tr =>
    have htrmem : ∀ x ∈ tr, x ∈ adductCombos a mc := by
      intro x hx
      rcases buildToRemove_go_mem a e (adductCombos a mc) [] tr htr x hx with h1 | h1
      · simp at h1
      · exact h1
    have hcnt : ∀ z, cnt z tr ≤ cnt z (adductCombos a mc) := by
      intro z
      have := buildToRemove_go_le a e z (adductCombos a mc) [] tr htr h
      rw [cnt_nil] at this
      omega
    have hrefl : ∀ t ∈ tr, dictEqv t t = true := by
      intro t ht
      obtain ⟨hnd, _, _, _⟩ := adductCombos_spec a mc t (htrmem t ht)
      exact dictEqv_refl t hnd
    have hra := removeAll_isSome tr (adductCombos a mc) hcnt hrefl
    show ((buildToRemove a e (adductCombos a mc)).bind
      (removeAll (adductCombos a mc))).isSome = true
    rw [htr]
    exact hra

/-- C3 witness: a spec with no conflicting combination runs without error. -/
theorem gen_adducts_combo_no_error_witness :
    (∀ i ∈ adductCombos [("H", 3), ("Na", 1)] 2,
      ¬(violCheck [("H", 3), ("Na", 1)] i = some true ∧ memEqv i [] = true)) ∧
    (gen_adducts_combo [("H", 3), ("Na", 1)] [] 2).isSome = true :=
  ⟨by decide, gen_adducts_combo_no_error [("H", 3), ("Na", 1)] [] 2 (by decide)⟩

/-! ### C8: the parser is total -/

/-- A token with no digit characters. -/
def NoDigits (t : String) : Prop := ∀ ch ∈ t.data, ch.isDigit = false

/-- All characters are digits. -/
def AllDigits (l : List Char) : Prop := ∀ c ∈ l, c.isDigit = true

/-- The shape of `re.split('(\\d+)', ...)` output: non-digit runs at even
positions, nonempty digit runs at odd positions; the empty token list never
occurs. -/
def TokOk : List String → Prop
  | [] => False
  | [t] => NoDigits t
  | t :: d :: rest => NoDigits t ∧ d ≠ "" ∧ AllDigits d.data ∧ TokOk rest

lemma string_data_ne_nil (d : String) (h : d ≠ "") : d.data ≠ [] := by
  intro hd
  apply h
  have : d = String.mk d.data := rfl
  rw [this, hd]

lemma mk_ne_empty (l : List Char) (h : l ≠ []) : String.mk l ≠ "" := by
  intro he
  have : l = [] := congrArg String.data he
  exact h this

lemma splitAux_tokOk : ∀ (l : List Char),
    (∀ cur, (∀ c ∈ cur, c.isDigit = false) → TokOk (splitAuxND cur l)) ∧
    (∀ cur, cur ≠ [] → AllDigits cur →
      ∃ d rest, splitAuxD cur l = d :: rest ∧ d ≠ "" ∧ AllDigits d.data ∧ TokOk rest) := by
  intro l
  induction l with
  | nil =>
    constructor
    · intro cur hcur
      show NoDigits (String.mk cur.reverse)
      intro ch hch
      exact hcur ch (List.mem_reverse.mp hch)
    · intro cur hne hdig
      refine ⟨String.mk cur.reverse, [""], rfl, ?_, ?_, ?_⟩
      · exact mk_ne_empty _ (fun h => hne (List.reverse_eq_nil_iff.mp h))
      · intro c hc
        exact hdig c (List.mem_reverse.mp hc)
      · show NoDigits ""
        intro ch hch
        rw [show ("" : String).data = [] from rfl] at hch
        simp at hch
  | cons c cs ih =>
    constructor
    · intro cur hcur
      rw [splitAuxND]
      by_cases hc : c.isDigit = true
      · rw [if_pos hc]
        obtain ⟨d, rest, heq, hdne, hdd, hrest⟩ :=
          ih.2 [c] (by simp) (fun x hx => by rwa [List.mem_singleton.mp hx])
        rw [heq]
        exact ⟨fun ch hch => hcur ch (List.mem_reverse.mp hch), hdne, hdd, hrest⟩
      · rw [if_neg hc]
        apply ih.1
        intro x hx
        rcases List.mem_cons.mp hx with rfl | hx'
        · exact Bool.eq_false_iff.mpr hc
        · exact hcur x hx'
    · intro cur hne hdig
      rw [splitAuxD]
      by_cases hc : c.isDigit = true
      · rw [if_pos hc]
        apply ih.2
        · simp
        · intro x hx
          rcases List.mem_cons.mp hx with rfl | hx'
          · exact hc
          · exact hdig x hx'
      · rw [if_neg hc]
        refine ⟨String.mk cur.reverse, splitAuxND [c] cs, rfl, ?_, ?_, ?_⟩
        · exact mk_ne_empty _ (fun h => hne (List.reverse_eq_nil_iff.mp h))
        · intro x hx
          exact hdig x (List.mem_reverse.mp hx)
        · apply ih.1
          intro x hx
          rw [List.mem_singleton.mp hx]
          exact Bool.eq_false_iff.mpr hc

lemma splitDigits_tokOk (s : String) : TokOk (splitDigits s) :=
  (splitAux_tokOk s.data).1 [] (by simp)

/-- Every second token (each one consumed as a count) parses as an int. -/
def PairsParse : List String → Prop
  | [] => True
  | [_] => True
  | _ :: d :: rest => (pyint d).isSome = true ∧ PairsParse rest

lemma pyint_digits (l : List Char) (hne : l ≠ []) (hd : AllDigits l) :
    pyint (String.mk l) = some (digitsVal l : Int) := by
  match l, hne with
  | c :: cs, _ =>
    have hc : c.isDigit = true := hd c (List.mem_cons_self c cs)
    have hcd : ¬c = '-' := by intro h; subst h; exact absurd hc (by decide)
    have hcp : ¬c = '+' := by intro h; subst h; exact absurd hc (by decide)
    show pyint (String.mk (c :: cs)) = _
    unfold pyint
    dsimp only
    rw [if_neg hcd, if_neg hcp, if_pos (List.all_eq_true.mpr hd)]

lemma pyint_dash_digits (l : List Char) (hne : l ≠ []) (hd : AllDigits l) :
    pyint (String.mk ('-' :: l)) = some (-(digitsVal l : Int)) := by
  unfold pyint
  dsimp only
  rw [if_pos rfl, if_pos ⟨hne, List.all_eq_true.mpr hd⟩]

lemma digits_lastIsDash (d : String) (hd : AllDigits d.data) : lastIsDash d = false := by
  unfold lastIsDash
  match hlast : d.data.getLast? with
  | none => rfl
  | some c =>
    have hc : c ∈ d.data := by
      obtain ⟨hne', heq⟩ :=
        List.mem_getLast?_eq_getLast (show c ∈ d.data.getLast? from hlast)
      rw [heq]
      exact List.getLast_mem hne'
    have hdig := hd c hc
    simp only [decide_eq_false_iff_not]
    intro h
    subst h
    exact absurd hdig (by decide)

lemma numTok_digits (neg : Bool) (d : String) (hne : d ≠ "") (hd : AllDigits d.data) :
    (pyint (numTok neg d).1).isSome = true := by
  unfold numTok stripFlag
  rw [digits_lastIsDash d hd]
  simp only [Bool.false_eq_true, and_false, if_false, ne_eq]
  by_cases hneg : neg = true
  · subst hneg
    rw [if_pos ⟨hne, rfl⟩]
    rw [show ("-" ++ d) = String.mk ('-' :: d.data) from rfl]
    rw [pyint_dash_digits d.data (string_data_ne_nil d hne) hd]
    rfl
  · rw [if_neg (fun h => hneg h.2)]
    show (pyint d).isSome = true
    rw [show pyint d = pyint (String.mk d.data) from rfl]
    rw [pyint_digits d.data (string_data_ne_nil d hne) hd]
    rfl

lemma applySigns_pairsParse : ∀ (ts : List String), TokOk ts → ∀ (neg : Bool),
    PairsParse (applySigns neg ts)
  | [], h => h.elim
  | [_], _ => fun _ => trivial
  | t :: d :: rest, h => fun neg => by
    obtain ⟨_, hdne, hdd, hrest⟩ := h
    show PairsParse ((stripFlag neg t).1 :: (numTok (stripFlag neg t).2 d).1 ::
      applySigns (numTok (stripFlag neg t).2 d).2 rest)
    exact ⟨numTok_digits _ d hdne hdd, applySigns_pairsParse rest hrest _⟩

lemma pairsParse_append_one : ∀ (ts : List String), PairsParse ts →
    PairsParse (ts ++ ["1"])
  | [], _ => by
    show PairsParse ["1"]
    trivial
  | [t], _ => by
    show PairsParse [t, "1"]
    exact ⟨by decide, trivial⟩
  | t :: d :: rest, h => by
    show PairsParse (t :: d :: (rest ++ ["1"]))
    exact ⟨h.1, pairsParse_append_one rest h.2⟩

lemma pairUp_total : ∀ (ts : List String) (d : Dict), PairsParse ts →
    (pairUp ts d).isSome = true
  | [], _, _ => rfl
  | [_], _, _ => rfl
  | t :: v :: rest, d, h => by
    have h1 : (pyint v).isSome = true := h.1
    rw [pairUp]
    match hv : pyint v with
    | none => rw [hv] at h1; simp at h1
    | some n =>
      rw [Option.some_bind]
      exact pairUp_total rest (dinsert d t n) h.2

/-- Totality of `form_to_comp` over every input string. -/
lemma parse_total (s : String) : (form_to_comp s).isSome = true := by
  have htok := splitDigits_tokOk s
  have hpp := applySigns_pairsParse (splitDigits s) htok false
  have hpp2 : PairsParse (if (applySigns false (splitDigits s)).length % 2 ≠ 0 then
      applySigns false (splitDigits s) ++ ["1"] else applySigns false (splitDigits s)) := by
    by_cases hlen : (applySigns false (splitDigits s)).length % 2 ≠ 0
    · rw [if_pos hlen]
      exact pairsParse_append_one _ hpp
    · rw [if_neg hlen]
      exact hpp
  have hps := pairUp_total _ [] hpp2
  have hiso : form_to_comp s = Option.map (fun d => d.filter (fun p => p.1 ≠ ""))
      (pairUp (if (applySigns false (splitDigits s)).length % 2 ≠ 0 then
        applySigns false (splitDigits s) ++ ["1"]
      else applySigns false (splitDigits s)) []) := rfl
  rw [hiso]
  match hp : pairUp (if (applySigns false (splitDigits s)).length % 2 ≠ 0 then
      applySigns false (splitDigits s) ++ ["1"] else applySigns false (splitDigits s)) [] with
  | none => rw [hp] at hps; simp at hps
  | some r => rfl

/-- C8 counterexample: no string at all makes `form_to_comp` fail, so there
is no malformed composition string on which the parser raises a
`FormatError` rather than returning a mapping. -/
theorem form_to_comp_never_fails : ¬∃ s, form_to_comp s = none := by
  intro ⟨s, hs⟩
  have h := parse_total s
  rw [hs] at h
  simp at h

/-- C8 amended: `form_to_comp` is total: the splitter always produces an
odd-length token list whose odd positions are nonempty digit runs, a `"1"` is
appended so pairing is total, and every count token parses as an integer;
every string, malformed or not, returns a mapping. -/
theorem form_to_comp_total : ∀ s, ∃ d, form_to_comp s = some d := by
  intro s
  have h := parse_total s
  match hp : form_to_comp s with
  | none => rw [hp] at h; simp at h
  | some d => exact ⟨d, rfl⟩

/-! ### C6: the sticky negation flag, in general -/

/-- C6 amended: in a string of the shape `X-` digit `Y` digit, the `-` after
`X` negates the numeric token that follows *and* every later numeric token:
both counts come out negative, for arbitrary digit characters. -/
theorem form_to_comp_sticky (c d : Char) (hc : c.isDigit = true) (hd : d.isDigit = true) :
    form_to_comp (String.mk ['X', '-', c, 'Y', d]) =
      some [("X", -(digitsVal [c] : Int)), ("Y", -(digitsVal [d] : Int))] := by
  have hcd : ¬c = '-' := fun h => by subst h; exact absurd hc (by decide)
  have hdd : ¬d = '-' := fun h => by subst h; exact absurd hd (by decide)
  have hcne : String.mk [c] ≠ "" := mk_ne_empty [c] (by simp)
  have hdne : String.mk [d] ≠ "" := mk_ne_empty [d] (by simp)
  have hsplit : splitDigits (String.mk ['X', '-', c, 'Y', d]) =
      [String.mk ['X', '-'], String.mk [c], String.mk ['Y'], String.mk [d], ""] := by
    simp [splitDigits, splitAuxND, splitAuxD, hc, hd,
      show ('X').isDigit = false from rfl, show ('-').isDigit = false from rfl,
      show ('Y').isDigit = false from rfl]
  have happ : applySigns false [String.mk ['X', '-'], String.mk [c], String.mk ['Y'],
      String.mk [d], ""] =
      [String.mk ['X'], "-" ++ String.mk [c], String.mk ['Y'], "-" ++ String.mk [d], ""] := by
    simp [applySigns, stripFlag, numTok, lastIsDash, dropLastStr, List.getLast?,
      decide_eq_false hcd, decide_eq_false hdd, hcne, hdne,
      show String.mk ['X', '-'] ≠ "" from by decide,
      show String.mk ['Y'] ≠ "" from by decide]
  have hpc : pyint ("-" ++ String.mk [c]) = some (-(digitsVal [c] : Int)) := by
    rw [show ("-" ++ String.mk [c]) = String.mk ('-' :: [c]) from rfl]
    exact pyint_dash_digits [c] (by simp)
      (fun x hx => by rw [List.mem_singleton.mp hx]; exact hc)
  have hpd : pyint ("-" ++ String.mk [d]) = some (-(digitsVal [d] : Int)) := by
    rw [show ("-" ++ String.mk [d]) = String.mk ('-' :: [d]) from rfl]
    exact pyint_dash_digits [d] (by simp)
      (fun x hx => by rw [List.mem_singleton.mp hx]; exact hd)
  simp only [form_to_comp, hsplit, happ]
  norm_num
  rw [pairUp, hpc, Option.some_bind, pairUp, hpd, Option.some_bind, pairUp,
    show pyint "1" = some 1 from by decide, Option.some_bind, pairUp]
  simp [dinsert, hasKey, List.filter,
    show (String.mk ['X'] = String.mk ['Y']) = False from by simp,
    show ((String.mk ['X'] : String) ≠ "") = True from by simp,
    show ((String.mk ['Y'] : String) ≠ "") = True from by simp]

/-- C6 witness at the concrete digits 2 and 3 (the string `"X-2Y3"`). -/
theorem form_to_comp_sticky_witness :
    ('2').isDigit = true ∧ ('3').isDigit = true ∧
    form_to_comp (String.mk ['X', '-', '2', 'Y', '3']) =
      some [("X", -(digitsVal ['2'] : Int)), ("Y", -(digitsVal ['3'] : Int))] :=
  ⟨by decide, by decide, form_to_comp_sticky '2' '3' (by decide) (by decide)⟩

/-! ### C9: the permethylation double add, in general -/

/-- Count of an atom in a row dict, 0 when missing. -/
def getAt (d : Dict) (k : String) : Int := (dlookup d k).getD 0

/-- A row carrying all four atom keys. -/
def has4 (d : Dict) : Prop :=
  (dlookup d "C").isSome = true ∧ (dlookup d "O").isSome = true ∧
  (dlookup d "N").isSome = true ∧ (dlookup d "H").isSome = true

/-- Carbon increment of one methylation pass. -/
def incC (k : String) : Int :=
  if k = "H" then 3 else if k = "N" then 3 else if k = "F" then 2
  else if k = "S" ∨ k = "G" then 5 else 0

/-- Hydrogen increment of one methylation pass. -/
def incH (k : String) : Int :=
  if k = "H" then 6 else if k = "N" then 6 else if k = "F" then 4
  else if k = "S" ∨ k = "G" then 10 else 0

lemma dlookup_addAt_self (d : Dict) (k : String) (n : Int) :
    dlookup (addAt d k n) k = (dlookup d k).map (fun v => v + n) := by
  induction d with
  | nil => rfl
  | cons p rest ih =>
    obtain ⟨k1, v1⟩ := p
    rw [addAt, List.map_cons]
    dsimp only
    by_cases hk : k1 = k
    · rw [if_pos hk, dlookup, if_pos hk, dlookup, if_pos hk]
      rfl
    · rw [if_neg hk, dlookup, if_neg hk, dlookup, if_neg hk]
      rw [← ih, addAt]

lemma dlookup_addAt_other (d : Dict) (k k' : String) (n : Int) (h : k ≠ k') :
    dlookup (addAt d k n) k' = dlookup d k' := by
  induction d with
  | nil => rfl
  | cons p rest ih =>
    obtain ⟨k1, v1⟩ := p
    rw [addAt, List.map_cons]
    dsimp only
    by_cases hk : k1 = k
    · rw [if_pos hk, dlookup, if_neg (hk ▸ h : k1 ≠ k'), dlookup,
        if_neg (hk ▸ h : k1 ≠ k')]
      rw [← ih, addAt]
    · rw [if_neg hk, dlookup]
      by_cases hk' : k1 = k'
      · rw [if_pos hk', dlookup, if_pos hk']
      · rw [if_neg hk', dlookup, if_neg hk']
        rw [← ih, addAt]

lemma isSome_addAt (d : Dict) (k k' : String) (n : Int) :
    (dlookup (addAt d k n) k').isSome = (dlookup d k').isSome := by
  by_cases h : k = k'
  · subst h
    rw [dlookup_addAt_self]
    cases dlookup d k <;> rfl
  · rw [dlookup_addAt_other d k k' n h]

lemma getAt_addAt_self (d : Dict) (k : String) (n : Int)
    (h : (dlookup d k).isSome = true) : getAt (addAt d k n) k = getAt d k + n := by
  unfold getAt
  rw [dlookup_addAt_self]
  obtain ⟨v, hv⟩ := Option.isSome_iff_exists.mp h
  rw [hv]
  rfl

lemma getAt_addAt_other (d : Dict) (k k' : String) (n : Int) (h : k ≠ k') :
    getAt (addAt d k n) k' = getAt d k' := by
  unfold getAt
  rw [dlookup_addAt_other d k k' n h]

lemma methylAdjust_isSome (k : String) (row : Dict) (k' : String) :
    (dlookup (methylAdjust k row) k').isSome = (dlookup row k').isSome := by
  unfold methylAdjust
  split_ifs <;> simp only [isSome_addAt]

lemma has4_methylAdjust (k : String) (row : Dict) (h : has4 row) :
    has4 (methylAdjust k row) := by
  obtain ⟨h1, h2, h3, h4⟩ := h
  exact ⟨by rw [methylAdjust_isSome]; exact h1, by rw [methylAdjust_isSome]; exact h2,
    by rw [methylAdjust_isSome]; exact h3, by rw [methylAdjust_isSome]; exact h4⟩

lemma getAt_methylAdjust (k : String) (row : Dict) (h : has4 row) :
    getAt (methylAdjust k row) "C" = getAt row "C" + incC k ∧
    getAt (methylAdjust k row) "H" = getAt row "H" + incH k := by
  obtain ⟨hC, _, _, hH⟩ := h
  have hCadd : (dlookup (addAt row "C" 3) "H").isSome = true := by
    rw [isSome_addAt]; exact hH
  have hCadd2 : (dlookup (addAt row "C" 2) "H").isSome = true := by
    rw [isSome_addAt]; exact hH
  have hCadd5 : (dlookup (addAt row "C" 5) "H").isSome = true := by
    rw [isSome_addAt]; exact hH
  unfold methylAdjust incC incH
  split_ifs with h1 h2 h3 h4
  · constructor
    · rw [getAt_addAt_other _ "H" "C" 6 (by decide), getAt_addAt_self row "C" 3 hC]
    · rw [getAt_addAt_self _ "H" 6 hCadd, getAt_addAt_other row "C" "H" 3 (by decide)]
  · constructor
    · rw [getAt_addAt_other _ "H" "C" 6 (by decide), getAt_addAt_self row "C" 3 hC]
    · rw [getAt_addAt_self _ "H" 6 hCadd, getAt_addAt_other row "C" "H" 3 (by decide)]
  · constructor
    · rw [getAt_addAt_other _ "H" "C" 4 (by decide), getAt_addAt_self row "C" 2 hC]
    · rw [getAt_addAt_self _ "H" 4 hCadd2, getAt_addAt_other row "C" "H" 2 (by decide)]
  · constructor
    · rw [getAt_addAt_other _ "H" "C" 10 (by decide), getAt_addAt_self row "C" 5 hC]
    · rw [getAt_addAt_self _ "H" 10 hCadd5, getAt_addAt_other row "C" "H" 5 (by decide)]
  · constructor <;> omega

lemma tlookup_permethylStep (t : MonoTable) (k : String) :
    tlookup (permethylStep t) k =
      (tlookup t k).map (fun row => ⟨row.fullName, row.formula, methylAdjust k row.comp⟩) := by
  induction t with
  | nil => rfl
  | cons e rest ih =>
    obtain ⟨k1, row1⟩ := e
    rw [permethylStep, List.map_cons]
    dsimp only
    by_cases hk : k1 = k
    · subst hk
      rw [tlookup, if_pos rfl, tlookup, if_pos rfl]
      rfl
    · rw [tlookup, if_neg hk, tlookup, if_neg hk]
      rw [← ih, permethylStep]

/-- The four-atom accumulator dict of `glycan_to_atoms`. -/
def mk4 (c o n h : Int) : Dict := [("C", c), ("O", o), ("N", n), ("H", h)]

lemma addScaled_mk4 (c o n h : Int) (row : Dict) (v : Int) (h4 : has4 row) :
    addScaled (mk4 c o n h) row v =
      some (mk4 (c + getAt row "C" * v) (o + getAt row "O" * v)
        (n + getAt row "N" * v) (h + getAt row "H" * v)) := by
  obtain ⟨hC, hO, hN, hH⟩ := h4
  obtain ⟨vc, hvc⟩ := Option.isSome_iff_exists.mp hC
  obtain ⟨vo, hvo⟩ := Option.isSome_iff_exists.mp hO
  obtain ⟨vn, hvn⟩ := Option.isSome_iff_exists.mp hN
  obtain ⟨vh, hvh⟩ := Option.isSome_iff_exists.mp hH
  simp [mk4, addScaled, hvc, hvo, hvn, hvh, getAt]

/-- Per-atom contribution of a composition against a table. -/
def contrib (tbl : MonoTable) (X : String) : Dict → Int
  | [] => 0
  | p :: rest =>
    (if p.1 = "T" then 0
     else getAt (((tlookup tbl p.1).map MonoRow.comp).getD []) X * p.2) + contrib tbl X rest

lemma glycanFold_mk4 (tbl : MonoTable) :
    ∀ (comp : Dict) (c o n h : Int),
      (∀ p ∈ comp, p.1 ≠ "T" → ∃ row, tlookup tbl p.1 = some row ∧ has4 row.comp) →
      glycanFold tbl comp (mk4 c o n h) =
        some (mk4 (c + contrib tbl "C" comp) (o + contrib tbl "O" comp)
          (n + contrib tbl "N" comp) (h + contrib tbl "H" comp)) := by
  intro comp
  induction comp with
  | nil =>
    intro c o n h _
    simp [glycanFold, contrib]
  | cons p rest ih =>
    intro c o n h hk
    obtain ⟨k1, v1⟩ := p
    rw [glycanFold]
    by_cases hT : k1 = "T"
    · rw [if_pos hT]
      rw [ih c o n h (fun q hq => hk q (List.mem_cons_of_mem _ hq))]
      simp [contrib, hT]
    · rw [if_neg hT]
      obtain ⟨row, hrow, h4row⟩ := hk (k1, v1) (List.mem_cons_self _ _) hT
      rw [hrow]
      dsimp only
      rw [addScaled_mk4 c o n h row.comp v1 h4row, Option.some_bind]
      rw [ih _ _ _ _ (fun q hq => hk q (List.mem_cons_of_mem _ hq))]
      simp only [contrib, hT, hrow, if_neg hT, if_false, Option.map_some', Option.getD_some,
        mk4, List.cons.injEq, Prod.mk.injEq, Option.some.injEq, and_true, true_and]
      exact ⟨by ring, by ring, by ring, by ring⟩

/-- Total methylation increment a composition would gain from one table
adjustment. -/
def contribInc (inc : String → Int) : Dict → Int
  | [] => 0
  | p :: rest => (if p.1 = "T" then 0 else inc p.1 * p.2) + contribInc inc rest

lemma contrib_perm (t : MonoTable) (X : String) (inc : String → Int)
    (hadj : ∀ (k : String) (row : Dict), has4 row →
      getAt (methylAdjust k row) X = getAt row X + inc k) :
    ∀ (comp : Dict),
      (∀ p ∈ comp, p.1 ≠ "T" → ∃ row, tlookup t p.1 = some row ∧ has4 row.comp) →
      contrib (permethylStep t) X comp = contrib t X comp + contribInc inc comp := by
  intro comp
  induction comp with
  | nil => intro _; simp [contrib, contribInc]
  | cons p rest ih =>
    intro hk
    obtain ⟨k1, v1⟩ := p
    rw [contrib, contrib, contribInc]
    rw [ih (fun q hq => hk q (List.mem_cons_of_mem _ hq))]
    by_cases hT : k1 = "T"
    · simp [hT]
    · obtain ⟨row, hrow, h4row⟩ := hk (k1, v1) (List.mem_cons_self _ _) hT
      rw [if_neg hT, if_neg hT, if_neg hT]
      rw [tlookup_permethylStep, hrow]
      simp only [Option.map_some', Option.getD_some]
      rw [hadj k1 row.comp h4row]
      ring

lemma contribInc_nonneg (inc : String → Int) (hpos : ∀ k, 0 ≤ inc k) :
    ∀ (comp : Dict), (∀ p ∈ comp, 0 ≤ p.2) → 0 ≤ contribInc inc comp := by
  intro comp
  induction comp with
  | nil => intro _; simp [contribInc]
  | cons p rest ih =>
    intro hnn
    rw [contribInc]
    have h1 : 0 ≤ contribInc inc rest := ih (fun q hq => hnn q (List.mem_cons_of_mem _ hq))
    have h2 : (0 : Int) ≤ if p.1 = "T" then 0 else inc p.1 * p.2 := by
      by_cases hT : p.1 = "T"
      · rw [if_pos hT]
      · rw [if_neg hT]
        exact mul_nonneg (hpos p.1) (hnn p (List.mem_cons_self _ _))
    omega

lemma contribInc_pos (inc : String → Int) (hpos : ∀ k, 0 ≤ inc k) :
    ∀ (comp : Dict), (∀ p ∈ comp, 0 ≤ p.2) →
      (∃ p ∈ comp, 1 ≤ p.2 ∧ 1 ≤ inc p.1 ∧ p.1 ≠ "T") → 1 ≤ contribInc inc comp := by
  intro comp
  induction comp with
  | nil => intro _ ⟨p, hp, _⟩; simp at hp
  | cons q rest ih =>
    intro hnn ⟨p, hp, hv, hi, hT⟩
    rw [contribInc]
    rcases List.mem_cons.mp hp with rfl | hp'
    · have hterm : (1 : Int) ≤ if p.1 = "T" then 0 else inc p.1 * p.2 := by
        rw [if_neg hT]
        calc (1 : Int) = 1 * 1 := by ring
        _ ≤ inc p.1 * p.2 := by
          apply mul_le_mul hi hv (by norm_num) (le_trans (by norm_num) hi)
      have := contribInc_nonneg inc hpos rest (fun r hr => hnn r (List.mem_cons_of_mem _ hr))
      omega
    · have hrest := ih (fun r hr => hnn r (List.mem_cons_of_mem _ hr)) ⟨p, hp', hv, hi, hT⟩
      have hterm : (0 : Int) ≤ if q.1 = "T" then 0 else inc q.1 * q.2 := by
        by_cases hTq : q.1 = "T"
        · rw [if_pos hTq]
        · rw [if_neg hTq]
          exact mul_nonneg (hpos q.1) (hnn q (List.mem_cons_self _ _))
      omega

lemma incC_nonneg : ∀ k, 0 ≤ incC k := by
  intro k
  unfold incC
  split_ifs <;> norm_num

lemma incH_nonneg : ∀ k, 0 ≤ incH k := by
  intro k
  unfold incH
  split_ifs <;> norm_num

/-- Two consecutive permethylated calls on the same composition from the same
starting table state, with the second call strictly increasing the C and H
counts. -/
def permethylDoubleAdds (comp : Dict) (tbl : MonoTable) : Prop :=
  ∃ A1 T1 A2 T2, glycan_to_atoms comp true tbl = some (A1, T1) ∧
    glycan_to_atoms comp true T1 = some (A2, T2) ∧
    (dlookup A1 "C").getD 0 < (dlookup A2 "C").getD 0 ∧
    (dlookup A1 "H").getD 0 < (dlookup A2 "H").getD 0

/-- C9 amended: the permethylation branch mutates the shared table on every
call, so a second permethylated call returns strictly larger C and H counts
than the first, provided the composition holds at least one residue among H,
N, F, S, G with a positive count (lS and eS receive no increment, hence the
counterexample). -/
theorem permethyl_double_add (comp : Dict) (tbl : MonoTable)
    (hk : ∀ p ∈ comp, p.1 ≠ "T" → ∃ row, tlookup tbl p.1 = some row ∧ has4 row.comp)
    (hnn : ∀ p ∈ comp, 0 ≤ p.2)
    (hex : ∃ p ∈ comp, 1 ≤ p.2 ∧ p.1 ∈ (["H", "N", "F", "S", "G"] : List String)) :
    permethylDoubleAdds comp tbl := by
  have hk1 : ∀ p ∈ comp, p.1 ≠ "T" →
      ∃ row, tlookup (permethylStep tbl) p.1 = some row ∧ has4 row.comp := by
    intro p hp hT
    obtain ⟨row, hrow, h4⟩ := hk p hp hT
    refine ⟨⟨row.fullName, row.formula, methylAdjust p.1 row.comp⟩, ?_,
      has4_methylAdjust p.1 row.comp h4⟩
    rw [tlookup_permethylStep, hrow]
    rfl
  have hk2 : ∀ p ∈ comp, p.1 ≠ "T" →
      ∃ row, tlookup (permethylStep (permethylStep tbl)) p.1 = some row ∧ has4 row.comp := by
    intro p hp hT
    obtain ⟨row, hrow, h4⟩ := hk1 p hp hT
    refine ⟨⟨row.fullName, row.formula, methylAdjust p.1 row.comp⟩, ?_,
      has4_methylAdjust p.1 row.comp h4⟩
    rw [tlookup_permethylStep, hrow]
    rfl
  have hg1 : glycan_to_atoms comp true tbl =
      some (mk4 (0 + contrib (permethylStep tbl) "C" comp)
        (0 + contrib (permethylStep tbl) "O" comp)
        (0 + contrib (permethylStep tbl) "N" comp)
        (0 + contrib (permethylStep tbl) "H" comp), permethylStep tbl) := by
    show (glycanFold (permethylStep tbl) comp (mk4 0 0 0 0)).map
      (fun a => (a, permethylStep tbl)) = _
    rw [glycanFold_mk4 (permethylStep tbl) comp 0 0 0 0 hk1]
    rfl
  have hg2 : glycan_to_atoms comp true (permethylStep tbl) =
      some (mk4 (0 + contrib (permethylStep (permethylStep tbl)) "C" comp)
        (0 + contrib (permethylStep (permethylStep tbl)) "O" comp)
        (0 + contrib (permethylStep (permethylStep tbl)) "N" comp)
        (0 + contrib (permethylStep (permethylStep tbl)) "H" comp),
        permethylStep (permethylStep tbl)) := by
    show (glycanFold (permethylStep (permethylStep tbl)) comp (mk4 0 0 0 0)).map
      (fun a => (a, permethylStep (permethylStep tbl))) = _
    rw [glycanFold_mk4 (permethylStep (permethylStep tbl)) comp 0 0 0 0 hk2]
    rfl
  have hrelC := contrib_perm (permethylStep tbl) "C" incC
    (fun k row h4 => (getAt_methylAdjust k row h4).1) comp hk1
  have hrelH := contrib_perm (permethylStep tbl) "H" incH
    (fun k row h4 => (getAt_methylAdjust k row h4).2) comp hk1
  have hspec : ∀ k : String, k ∈ (["H", "N", "F", "S", "G"] : List String) →
      1 ≤ incC k ∧ 1 ≤ incH k ∧ k ≠ "T" := by
    intro k h
    simp only [List.mem_cons, List.not_mem_nil, or_false] at h
    rcases h with h | h | h | h | h <;> subst h <;> exact ⟨by decide, by decide, by decide⟩
  have hexC : ∃ p ∈ comp, 1 ≤ p.2 ∧ 1 ≤ incC p.1 ∧ p.1 ≠ "T" := by
    obtain ⟨p, hp, hv, hmem⟩ := hex
    exact ⟨p, hp, hv, (hspec p.1 hmem).1, (hspec p.1 hmem).2.2⟩
  have hexH : ∃ p ∈ comp, 1 ≤ p.2 ∧ 1 ≤ incH p.1 ∧ p.1 ≠ "T" := by
    obtain ⟨p, hp, hv, hmem⟩ := hex
    exact ⟨p, hp, hv, (hspec p.1 hmem).2.1, (hspec p.1 hmem).2.2⟩
  have hposC := contribInc_pos incC incC_nonneg comp hnn hexC
  have hposH := contribInc_pos incH incH_nonneg comp hnn hexH
  refine ⟨_, _, _, _, hg1, hg2, ?_, ?_⟩
  · show (0 + contrib (permethylStep tbl) "C" comp : Int) <
      0 + contrib (permethylStep (permethylStep tbl)) "C" comp
    omega
  · show (0 + contrib (permethylStep tbl) "H" comp : Int) <
      0 + contrib (permethylStep (permethylStep tbl)) "H" comp
    omega

/-- C9 witness: the single-hexose composition against the pristine table. -/
theorem permethyl_double_add_witness :
    (∀ p ∈ ([("H", 1)] : Dict), 0 ≤ p.2) ∧ permethylDoubleAdds [("H", 1)] monosaccharides := by
  refine ⟨by decide, permethyl_double_add [("H", 1)] monosaccharides ?_ (by decide) ?_⟩
  · intro p hp hT
    have hp' := List.mem_singleton.mp hp
    subst hp'
    exact ⟨_, rfl, ⟨rfl, rfl, rfl, rfl⟩⟩
  · exact ⟨("H", 1), by decide, by decide, by decide⟩

/-! ### C2: the parse-format-parse round trip -/

lemma dkeys_dinsert (d : Dict) (k : String) (v : Int) :
    dkeys (dinsert d k v) = if k ∈ dkeys d then dkeys d else dkeys d ++ [k] := by
  induction d with
  | nil => simp [dinsert, dkeys]
  | cons p rest ih =>
    rw [dinsert]
    by_cases hk : p.1 = k
    · subst hk
      simp [dkeys]
    · rw [if_neg hk]
      simp only [dkeys, List.map_cons] at ih ⊢
      rw [ih]
      by_cases hm : k ∈ List.map Prod.fst rest
      · rw [if_pos hm, if_pos (by simp [hm])]
      · rw [if_neg hm, if_neg ?hnot, List.cons_append]
        case hnot =>
          simp only [List.mem_cons, not_or]
          exact ⟨fun h => hk h.symm, hm⟩

lemma nodup_dinsert (d : Dict) (k : String) (v : Int) (h : (dkeys d).Nodup) :
    (dkeys (dinsert d k v)).Nodup := by
  rw [dkeys_dinsert]
  by_cases hm : k ∈ dkeys d
  · rwa [if_pos hm]
  · rw [if_neg hm]
    rw [List.nodup_append]
    exact ⟨h, List.nodup_singleton k, fun x hx hxk => hm ((List.mem_singleton.mp hxk) ▸ hx)⟩

lemma mem_dinsert (d : Dict) (k : String) (v : Int) (p : String × Int)
    (h : p ∈ dinsert d k v) : p ∈ d ∨ p = (k, v) := by
  induction d with
  | nil => simp only [dinsert, List.mem_singleton] at h; exact Or.inr h
  | cons q rest ih =>
    rw [dinsert] at h
    by_cases hk : q.1 = k
    · rw [if_pos hk] at h
      rcases List.mem_cons.mp h with h1 | h1
      · exact Or.inr (by rw [h1, hk])
      · exact Or.inl (List.mem_cons_of_mem q h1)
    · rw [if_neg hk] at h
      rcases List.mem_cons.mp h with h1 | h1
      · exact Or.inl (h1 ▸ List.mem_cons_self q rest)
      · rcases ih h1 with h2 | h2
        · exact Or.inl (List.mem_cons_of_mem q h2)
        · exact Or.inr h2

/-- Non-digit tokens at every even position (the positions that become
keys). -/
def EvensND : List String → Prop
  | [] => True
  | [t] => NoDigits t
  | t :: _ :: rest => NoDigits t ∧ EvensND rest

lemma stripFlag_noDigits (neg : Bool) (t : String) (h : NoDigits t) :
    NoDigits ((stripFlag neg t).1) := by
  unfold stripFlag
  by_cases hc : t ≠ "" ∧ lastIsDash t = true
  · rw [if_pos hc]
    intro ch hch
    exact h ch (List.dropLast_sublist t.data |>.subset hch)
  · rw [if_neg hc]
    exact h

lemma applySigns_evensND : ∀ (ts : List String), TokOk ts → ∀ (neg : Bool),
    EvensND (applySigns neg ts)
  | [], h => h.elim
  | [t], h => fun neg => stripFlag_noDigits neg t h
  | t :: d :: rest, h => fun neg => by
    obtain ⟨hnd, _, _, hrest⟩ := h
    show EvensND ((stripFlag neg t).1 :: (numTok (stripFlag neg t).2 d).1 ::
      applySigns (numTok (stripFlag neg t).2 d).2 rest)
    exact ⟨stripFlag_noDigits neg t hnd, applySigns_evensND rest hrest _⟩

lemma applySigns_length : ∀ (ts : List String) (neg : Bool),
    (applySigns neg ts).length = ts.length
  | [], _ => rfl
  | [_], _ => rfl
  | t :: d :: rest, neg => by
    show ((stripFlag neg t).1 :: (numTok (stripFlag neg t).2 d).1 ::
      applySigns (numTok (stripFlag neg t).2 d).2 rest).length = _
    simp [applySigns_length rest]

lemma tokOk_length_odd : ∀ (ts : List String), TokOk ts → ts.length % 2 = 1
  | [], h => h.elim
  | [_], _ => rfl
  | _ :: _ :: rest, h => by
    have := tokOk_length_odd rest h.2.2.2
    simp only [List.length_cons]
    omega

lemma evensND_append_one : ∀ (ts : List String), EvensND ts → ts.length % 2 = 1 →
    EvensND (ts ++ ["1"])
  | [], _, hlen => by simp at hlen
  | [t], h, _ => by
    show EvensND [t, "1"]
    exact ⟨h, trivial⟩
  | t :: d :: rest, h, hlen => by
    show EvensND (t :: d :: (rest ++ ["1"]))
    refine ⟨h.1, evensND_append_one rest h.2 ?_⟩
    simp only [List.length_cons] at hlen
    omega

lemma pairUp_shape : ∀ (ts : List String) (d r : Dict), pairUp ts d = some r →
    (dkeys d).Nodup → (∀ p ∈ d, NoDigits p.1) → EvensND ts →
    (dkeys r).Nodup ∧ (∀ p ∈ r, NoDigits p.1)
  | [], d, r, h, hnd, hprop, _ => by
    simp only [pairUp, Option.some.injEq] at h
    subst h
    exact ⟨hnd, hprop⟩
  | [t], d, r, h, hnd, hprop, _ => by
    simp only [pairUp, Option.some.injEq] at h
    subst h
    exact ⟨hnd, hprop⟩
  | k :: v :: rest, d, r, h, hnd, hprop, he => by
    rw [pairUp] at h
    match hv : pyint v with
    | none => rw [hv] at h; simp at h
    | some n =>
      rw [hv, Option.some_bind] at h
      apply pairUp_shape rest (dinsert d k n) r h (nodup_dinsert d k n hnd) ?_ he.2
      intro p hp
      rcases mem_dinsert d k n p hp with h1 | h1
      · exact hprop p h1
      · rw [h1]
        exact he.1

/-- Shape of every parse result: unique keys, all nonempty and digit-free. -/
lemma parse_shape (s : String) (D : Dict) (h : form_to_comp s = some D) :
    (dkeys D).Nodup ∧ ∀ p ∈ D, p.1 ≠ "" ∧ NoDigits p.1 := by
  have hiso : form_to_comp s = Option.map (fun d => d.filter (fun p => p.1 ≠ ""))
      (pairUp (if (applySigns false (splitDigits s)).length % 2 ≠ 0 then
        applySigns false (splitDigits s) ++ ["1"]
      else applySigns false (splitDigits s)) []) := rfl
  rw [hiso] at h
  match hp : pairUp (if (applySigns false (splitDigits s)).length % 2 ≠ 0 then
      applySigns false (splitDigits s) ++ ["1"] else applySigns false (splitDigits s)) [] with
  | none => rw [hp] at h; simp at h
  | some r =>
    rw [hp] at h
    simp only [Option.map_some', Option.some.injEq] at h
    subst h
    have htok := splitDigits_tokOk s
    have he : EvensND (if (applySigns false (splitDigits s)).length % 2 ≠ 0 then
        applySigns false (splitDigits s) ++ ["1"] else applySigns false (splitDigits s)) := by
      by_cases hlen : (applySigns false (splitDigits s)).length % 2 ≠ 0
      · rw [if_pos hlen]
        apply evensND_append_one _ (applySigns_evensND _ htok false)
        rw [applySigns_length]
        exact tokOk_length_odd _ htok
      · rw [if_neg hlen]
        exact applySigns_evensND _ htok false
    obtain ⟨hnd, hprop⟩ := pairUp_shape _ [] r hp (by simp [dkeys]) (by simp) he
    constructor
    · apply List.Nodup.sublist ?_ hnd
      exact List.Sublist.map Prod.fst (List.filter_sublist r)
    · intro p hp'
      have hmem := List.mem_of_mem_filter hp'
      have hne : p.1 ≠ "" := by
        have := List.of_mem_filter hp'
        simpa using this
      exact ⟨hne, hprop p hmem⟩

lemma digitsVal_append_singleton (l : List Char) (c : Char) :
    digitsVal (l ++ [c]) = 10 * digitsVal l + digitVal c := by
  simp [digitsVal, List.foldl_append]

lemma natReprAux_spec : ∀ (fuel n : Nat), n < fuel →
    natReprAux fuel n ≠ [] ∧ AllDigits (natReprAux fuel n) ∧
    digitsVal (natReprAux fuel n) = n
  | 0, n, h => absurd h (Nat.not_lt_zero n)
  | fuel + 1, n, h => by
    rw [natReprAux]
    by_cases h10 : n < 10
    · rw [if_pos h10]
      have hdig : ∀ m < 10, (Char.ofNat (48 + m)).isDigit = true ∧
          digitVal (Char.ofNat (48 + m)) = m := by decide
      refine ⟨by simp, ?_, ?_⟩
      · intro c hc
        rw [List.mem_singleton] at hc
        rw [hc]
        exact (hdig n h10).1
      · show digitsVal [Char.ofNat (48 + n)] = n
        have : digitsVal [Char.ofNat (48 + n)] = digitVal (Char.ofNat (48 + n)) := by
          simp [digitsVal]
        rw [this]
        exact (hdig n h10).2
    · rw [if_neg h10]
      have hfuel : n / 10 < fuel := by omega
      obtain ⟨hne, hd, hv⟩ := natReprAux_spec fuel (n / 10) hfuel
      have hdig : ∀ m < 10, (Char.ofNat (48 + m)).isDigit = true ∧
          digitVal (Char.ofNat (48 + m)) = m := by decide
      have hm : n % 10 < 10 := Nat.mod_lt n (by omega)
      refine ⟨by simp, ?_, ?_⟩
      · intro c hc
        rcases List.mem_append.mp hc with h1 | h1
        · exact hd c h1
        · rw [List.mem_singleton] at h1
          rw [h1]
          exact (hdig _ hm).1
      · rw [digitsVal_append_singleton, hv, (hdig _ hm).2]
        omega

lemma natRepr_data_ne (n : Nat) : (natRepr n).data ≠ [] :=
  (natReprAux_spec (n + 1) n (Nat.lt_succ_self n)).1

lemma natRepr_digits (n : Nat) : AllDigits (natRepr n).data :=
  (natReprAux_spec (n + 1) n (Nat.lt_succ_self n)).2.1

lemma digitsVal_natRepr (n : Nat) : digitsVal (natRepr n).data = n :=
  (natReprAux_spec (n + 1) n (Nat.lt_succ_self n)).2.2

lemma pyint_intRepr (v : Int) : pyint (intRepr v) = some v := by
  unfold intRepr
  by_cases hv : v < 0
  · rw [if_pos hv,
      show ("-" ++ natRepr (-v).toNat) = String.mk ('-' :: (natRepr (-v).toNat).data) from rfl,
      pyint_dash_digits _ (natRepr_data_ne _) (natRepr_digits _), digitsVal_natRepr]
    congr 1
    omega
  · rw [if_neg hv,
      show natRepr v.toNat = String.mk (natRepr v.toNat).data from rfl,
      pyint_digits _ (natRepr_data_ne _) (natRepr_digits _), digitsVal_natRepr]
    congr 1
    omega

lemma lastIsDash_natRepr (n : Nat) : lastIsDash (natRepr n) = false :=
  digits_lastIsDash (natRepr n) (natRepr_digits n)

/-- Structural form of `comp_to_formula`. -/
def fmt : Dict → String
  | [] => ""
  | (k, v) :: rest => (if v ≠ 0 then k ++ intRepr v else "") ++ fmt rest

lemma foldl_fmt : ∀ (d : Dict) (acc : String),
    d.foldl (fun acc p => if p.2 ≠ 0 then acc ++ p.1 ++ intRepr p.2 else acc) acc =
      acc ++ fmt d
  | [], acc => by
    show acc = acc ++ ""
    apply String.ext
    simp [String.data_append]
  | (k, v) :: rest, acc => by
    rw [List.foldl_cons, foldl_fmt rest, fmt]
    apply String.ext
    by_cases hv : v ≠ 0
    · rw [if_pos hv, if_pos hv]
      simp [String.data_append]
    · rw [if_neg hv, if_neg hv]
      simp [String.data_append]

lemma comp_to_formula_eq_fmt (d : Dict) : comp_to_formula d = "" ++ fmt d :=
  foldl_fmt d ""

lemma fmt_filter : ∀ (d : Dict), fmt (d.filter (fun p => p.2 ≠ 0)) = fmt d
  | [] => rfl
  | (k, v) :: rest => by
    rw [fmt, List.filter_cons]
    by_cases hv : v ≠ 0
    · rw [if_pos (by simpa using hv), if_pos hv, fmt, fmt_filter rest, if_pos hv]
    · rw [if_neg (by simpa using hv), if_neg hv, fmt_filter rest]
      apply String.ext
      simp [String.data_append]

/-- The optional sign character the formatter places before the digits. -/
def dashOpt (v : Int) : List Char := if v < 0 then ['-'] else []

lemma intRepr_data (v : Int) : (intRepr v).data = dashOpt v ++ (natRepr v.natAbs).data := by
  unfold intRepr dashOpt
  by_cases hv : v < 0
  · rw [if_pos hv, if_pos hv, String.data_append,
      show (-v).toNat = v.natAbs by omega]
  · rw [if_neg hv, if_neg hv, show v.toNat = v.natAbs by omega, List.nil_append]

lemma dashOpt_noDigit (v : Int) : ∀ c ∈ dashOpt v, c.isDigit = false := by
  unfold dashOpt
  by_cases hv : v < 0
  · rw [if_pos hv]
    intro c hc
    rw [List.mem_singleton.mp hc]
    decide
  · rw [if_neg hv]
    intro c hc
    simp at hc

lemma splitAuxND_scan : ∀ (l : List Char), (∀ c ∈ l, c.isDigit = false) →
    ∀ (cur cs : List Char), splitAuxND cur (l ++ cs) = splitAuxND (l.reverse ++ cur) cs
  | [], _ => fun cur cs => by simp
  | c :: l', h => fun cur cs => by
    rw [List.cons_append, splitAuxND, if_neg (by simp [h c (List.mem_cons_self c l')]),
      splitAuxND_scan l' (fun x hx => h x (List.mem_cons_of_mem c hx)) (c :: cur) cs]
    congr 1
    simp

lemma splitAuxD_scan : ∀ (l : List Char), AllDigits l →
    ∀ (cur cs : List Char), splitAuxD cur (l ++ cs) = splitAuxD (l.reverse ++ cur) cs
  | [], _ => fun cur cs => by simp
  | c :: l', h => fun cur cs => by
    rw [List.cons_append, splitAuxD, if_pos (h c (List.mem_cons_self c l')),
      splitAuxD_scan l' (fun x hx => h x (List.mem_cons_of_mem c hx)) (c :: cur) cs]
    congr 1
    simp

/-- Leaving a digit run: when the remaining input is empty or starts with a
non-digit, the digit-state splitter emits its accumulator and restarts. -/
lemma splitAuxD_exit (cs : List Char)
    (h : cs = [] ∨ ∃ c tail, cs = c :: tail ∧ c.isDigit = false) (acc : List Char) :
    splitAuxD acc cs = String.mk acc.reverse :: splitAuxND [] cs := by
  rcases h with rfl | ⟨c, tail, rfl, hc⟩
  · rw [splitAuxD, splitAuxND]
    rfl
  · rw [splitAuxD, if_neg (by simp [hc]), splitAuxND, if_neg (by simp [hc])]

/-- First non-digit run of the formatted tail: the key of the first remaining
entry plus its sign character. -/
def hdRun : Dict → List Char
  | [] => []
  | (k, v) :: _ => k.data ++ dashOpt v

/-- Remaining tokens of the formatted tail after the first non-digit run. -/
def tlToks : Dict → List String
  | [] => []
  | (_, v) :: rest => natRepr v.natAbs :: String.mk (hdRun rest) :: tlToks rest

lemma fmt_head : ∀ (E : Dict), (∀ p ∈ E, p.1 ≠ "" ∧ NoDigits p.1 ∧ p.2 ≠ 0) →
    (fmt E).data = [] ∨ ∃ c tail, (fmt E).data = c :: tail ∧ c.isDigit = false
  | [], _ => Or.inl rfl
  | (k, v) :: rest, h => by
    obtain ⟨hk, hnd, hv⟩ := h (k, v) (List.mem_cons_self _ _)
    right
    rw [fmt, if_pos hv, String.data_append, String.data_append]
    match hd : k.data with
    | [] => exact absurd hd (string_data_ne_nil k hk)
    | c :: cs =>
      refine ⟨c, cs ++ ((intRepr v).data ++ (fmt rest).data), by simp, ?_⟩
      exact hnd c (hd ▸ List.mem_cons_self c cs)

lemma splitAuxND_fmt : ∀ (E : Dict), (∀ p ∈ E, p.1 ≠ "" ∧ NoDigits p.1 ∧ p.2 ≠ 0) →
    ∀ (cur : List Char),
    splitAuxND cur ((fmt E).data) = String.mk (cur.reverse ++ hdRun E) :: tlToks E
  | [], _ => fun cur => by
    rw [show (fmt []).data = [] from rfl, splitAuxND, hdRun, tlToks, List.append_nil]
  | (k, v) :: rest, h => fun cur => by
    obtain ⟨hk, hnd, hv⟩ := h (k, v) (List.mem_cons_self _ _)
    have hrest : ∀ p ∈ rest, p.1 ≠ "" ∧ NoDigits p.1 ∧ p.2 ≠ 0 :=
      fun p hp => h p (List.mem_cons_of_mem _ hp)
    have hndrun : ∀ c ∈ k.data ++ dashOpt v, c.isDigit = false := by
      intro c hc
      rcases List.mem_append.mp hc with h1 | h1
      · exact hnd c h1
      · exact dashOpt_noDigit v c h1
    rw [fmt, if_pos hv, String.data_append, String.data_append, intRepr_data,
      ← List.append_assoc k.data, List.append_assoc (k.data ++ dashOpt v),
      splitAuxND_scan _ hndrun cur _]
    match hdig : (natRepr v.natAbs).data with
    | [] => exact absurd hdig (natRepr_data_ne _)
    | c :: ds =>
      have hdigs : AllDigits (c :: ds) := hdig ▸ natRepr_digits v.natAbs
      have hds : AllDigits ds := fun x hx => hdigs x (List.mem_cons_of_mem c hx)
      rw [List.cons_append, splitAuxND, if_pos (hdigs c (List.mem_cons_self c ds)),
        splitAuxD_scan ds hds [c] ((fmt rest).data),
        splitAuxD_exit _ (fmt_head rest hrest) _,
        splitAuxND_fmt rest hrest [],
        hdRun, tlToks]
      have e1 : ((k.data ++ dashOpt v).reverse ++ cur).reverse =
          cur.reverse ++ (k.data ++ dashOpt v) := by simp
      have e2 : (ds.reverse ++ [c]).reverse = c :: ds := by simp
      have e3 : (([] : List Char).reverse ++ hdRun rest) = hdRun rest := by simp
      rw [e1, e2, ← hdig, e3]

/-- The token list after the sign-fixing pass on a formatted dict. -/
def sigToks : Dict → List String
  | [] => [""]
  | (k, v) :: rest => k :: intRepr v :: sigToks rest

lemma sigToks_length : ∀ (E : Dict), (sigToks E).length = 2 * E.length + 1
  | [] => rfl
  | (_, _) :: rest => by
    rw [sigToks]
    simp only [List.length_cons, sigToks_length rest, List.length_cons]
    ring

/-- Negative counts may only be followed by nonpositive counts: the formatter
then reproduces the sticky sign flag of the parser. -/
def SignSorted (D : Dict) : Prop := D.Pairwise (fun a b => a.2 < 0 → b.2 ≤ 0)

/-- A key ending in a dash must carry a nonpositive count, else its dash is
eaten by the reparse. -/
def KeySignOk (D : Dict) : Prop := ∀ p ∈ D, lastIsDash p.1 = true → p.2 ≤ 0

lemma natRepr_ne_empty (n : Nat) : natRepr n ≠ "" :=
  mk_ne_empty _ (natRepr_data_ne n)

lemma stripFlag_empty (neg : Bool) : stripFlag neg "" = ("", neg) := by
  unfold stripFlag
  rw [if_neg (by simp)]

lemma stripFlag_natRepr (neg : Bool) (n : Nat) :
    stripFlag neg (natRepr n) = (natRepr n, neg) := by
  unfold stripFlag
  rw [if_neg]
  simp [lastIsDash_natRepr]

lemma numTok_natRepr (n : Nat) (neg : Bool) :
    numTok neg (natRepr n) =
      ((if neg = true then "-" ++ natRepr n else natRepr n), neg) := by
  show (if natRepr n ≠ "" ∧ (stripFlag neg (natRepr n)).2 = true
      then ("-" ++ natRepr n, (stripFlag neg (natRepr n)).2)
      else stripFlag neg (natRepr n)) = _
  rw [stripFlag_natRepr]
  by_cases hn : neg = true
  · subst hn
    rw [if_pos ⟨natRepr_ne_empty n, rfl⟩, if_pos rfl]
  · have hn' : neg = false := by
      cases neg
      · rfl
      · exact absurd rfl hn
    subst hn'
    rw [if_neg (by simp), if_neg (by simp)]

lemma intRepr_of_neg (v : Int) (hv : v < 0) : intRepr v = "-" ++ natRepr v.natAbs := by
  unfold intRepr
  rw [if_pos hv, show (-v).toNat = v.natAbs by omega]

lemma intRepr_of_pos (v : Int) (hv : 0 < v) : intRepr v = natRepr v.natAbs := by
  unfold intRepr
  rw [if_neg (by omega), show v.toNat = v.natAbs by omega]

lemma applySigns_fmt : ∀ (E : Dict),
    (∀ p ∈ E, p.1 ≠ "" ∧ NoDigits p.1 ∧ p.2 ≠ 0) → SignSorted E → KeySignOk E →
    ∀ (neg : Bool), (neg = true → ∀ p ∈ E, p.2 < 0) →
    applySigns neg (String.mk (hdRun E) :: tlToks E) = sigToks E
  | [], _, _, _ => fun neg _ => by
    rw [hdRun, tlToks, sigToks]
    show [(stripFlag neg (String.mk [])).1] = [""]
    rw [show String.mk [] = "" from rfl, stripFlag_empty]
  | (k, v) :: rest, hp, hsort, hks => fun neg hneg => by
    obtain ⟨hk, hnd, hv⟩ := hp (k, v) (List.mem_cons_self _ _)
    have hprest : ∀ p ∈ rest, p.1 ≠ "" ∧ NoDigits p.1 ∧ p.2 ≠ 0 :=
      fun p hp' => hp p (List.mem_cons_of_mem _ hp')
    have hsrest : SignSorted rest := (List.pairwise_cons.mp hsort).2
    have hkrest : KeySignOk rest := fun p hp' => hks p (List.mem_cons_of_mem _ hp')
    rw [hdRun, tlToks, sigToks]
    show (stripFlag neg (String.mk (k.data ++ dashOpt v))).1 ::
        (numTok (stripFlag neg (String.mk (k.data ++ dashOpt v))).2 (natRepr v.natAbs)).1 ::
        applySigns (numTok (stripFlag neg (String.mk (k.data ++ dashOpt v))).2
          (natRepr v.natAbs)).2 (String.mk (hdRun rest) :: tlToks rest) =
      k :: intRepr v :: sigToks rest
    rcases hv.lt_or_lt with hvn | hvp
    · have hdo : dashOpt v = ['-'] := by unfold dashOpt; rw [if_pos hvn]
      have hstrip : stripFlag neg (String.mk (k.data ++ dashOpt v)) = (k, true) := by
        rw [hdo]
        unfold stripFlag
        rw [if_pos ?hc]
        case hc =>
          refine ⟨mk_ne_empty _ (by simp), ?_⟩
          unfold lastIsDash
          rw [show (String.mk (k.data ++ ['-'])).data = k.data ++ ['-'] from rfl,
            List.getLast?_concat]
          simp
        unfold dropLastStr
        rw [show (String.mk (k.data ++ ['-'])).data = k.data ++ ['-'] from rfl,
          List.dropLast_concat]
      rw [hstrip]
      dsimp only
      rw [numTok_natRepr]
      dsimp only
      rw [if_pos rfl, ← intRepr_of_neg v hvn]
      rw [applySigns_fmt rest hprest hsrest hkrest true ?hall]
      case hall =>
        intro _ p hp'
        have := (List.pairwise_cons.mp hsort).1 p hp' hvn
        have := (hprest p hp').2.2
        omega
    · have hdo : dashOpt v = [] := by unfold dashOpt; rw [if_neg (by omega)]
      have hnegf : neg = false := by
        cases neg
        · rfl
        · have := hneg rfl (k, v) (List.mem_cons_self _ _)
          omega
      have hld : lastIsDash k = false := by
        by_cases h : lastIsDash k = true
        · have := hks (k, v) (List.mem_cons_self _ _) h
          omega
        · exact Bool.eq_false_iff.mpr h
      have hstrip : stripFlag neg (String.mk (k.data ++ dashOpt v)) = (k, false) := by
        rw [hdo, List.append_nil, show String.mk k.data = k from rfl]
        unfold stripFlag
        rw [if_neg (by simp [hld]), hnegf]
      rw [hstrip]
      dsimp only
      rw [numTok_natRepr]
      dsimp only
      rw [if_neg (by simp : ¬(false : Bool) = true), ← intRepr_of_pos v hvp]
      rw [applySigns_fmt rest hprest hsrest hkrest false
        (fun hf => absurd hf (by simp))]

/-- Folding a dict into another dict entry by entry, as the pairing loop
does. -/
def dinsertAll : Dict → Dict → Dict
  | d, [] => d
  | d, (k, v) :: rest => dinsertAll (dinsert d k v) rest

lemma pairUp_sigToks : ∀ (E : Dict) (d : Dict),
    pairUp (sigToks E ++ ["1"]) d = some (dinsert (dinsertAll d E) "" 1)
  | [], d => by
    show pairUp ["", "1"] d = some (dinsert d "" 1)
    rw [pairUp, show pyint "1" = some 1 from rfl, Option.some_bind, pairUp]
  | (k, v) :: rest, d => by
    show pairUp (k :: intRepr v :: (sigToks rest ++ ["1"])) d = _
    rw [pairUp, pyint_intRepr, Option.some_bind]
    exact pairUp_sigToks rest (dinsert d k v)

lemma dinsert_fresh : ∀ (d : Dict) (k : String) (v : Int), k ∉ dkeys d →
    dinsert d k v = d ++ [(k, v)]
  | [], _, _, _ => rfl
  | (k', v') :: rest, k, v, h => by
    have hk : k' ≠ k := by
      intro he
      exact h (he ▸ List.mem_cons_self k' (dkeys rest))
    rw [dinsert, if_neg hk, List.cons_append,
      dinsert_fresh rest k v (fun hm => h (List.mem_cons_of_mem k' hm))]

lemma dinsertAll_append : ∀ (E d : Dict), (dkeys E).Nodup →
    (∀ k ∈ dkeys E, k ∉ dkeys d) → dinsertAll d E = d ++ E
  | [], d, _, _ => by
    rw [dinsertAll, List.append_nil]
  | (k, v) :: rest, d, hnd, hdisj => by
    have hnd' : (dkeys rest).Nodup := (List.nodup_cons.mp hnd).2
    have hk : k ∉ dkeys rest := (List.nodup_cons.mp hnd).1
    rw [dinsertAll, dinsert_fresh d k v (hdisj k (List.mem_cons_self _ _)),
      dinsertAll_append rest (d ++ [(k, v)]) hnd' ?hdisj2]
    · simp
    case hdisj2 =>
      intro k' hk'
      rw [dkeys, List.map_append, List.mem_append]
      push_neg
      refine ⟨hdisj k' (List.mem_cons_of_mem _ hk'), ?_⟩
      intro hm
      rw [show List.map Prod.fst [(k, v)] = [k] from rfl, List.mem_singleton] at hm
      exact hk (hm ▸ hk')

lemma dlookup_eq_none : ∀ (d : Dict) (k : String), k ∉ dkeys d → dlookup d k = none
  | [], _, _ => rfl
  | (k', v') :: rest, k, h => by
    have hk : k' ≠ k := fun he => h (he ▸ List.mem_cons_self k' (dkeys rest))
    rw [dlookup, if_neg hk]
    exact dlookup_eq_none rest k (fun hm => h (List.mem_cons_of_mem k' hm))

/-- Dropping the zero-count entries of a dict with unique keys does not change
its value as a finitely supported map. -/
lemma dictEqv0_filter (D : Dict) (hnd : (dkeys D).Nodup) :
    dictEqv0 (D.filter (fun p => p.2 ≠ 0)) D = true := by
  have hndf : (dkeys (D.filter (fun p => p.2 ≠ 0))).Nodup :=
    List.Nodup.sublist (List.Sublist.map Prod.fst (List.filter_sublist D)) hnd
  rw [dictEqv0, Bool.and_eq_true, List.all_eq_true, List.all_eq_true]
  constructor
  · intro p hp
    have hmem := List.mem_of_mem_filter hp
    rw [dlookup_eq_some_of_mem_nodup D p hnd hmem]
    simp
  · intro p hp
    by_cases hz : p.2 = 0
    · have hnot : p.1 ∉ dkeys (D.filter (fun q => q.2 ≠ 0)) := by
        intro hm
        obtain ⟨q, hq, hq1⟩ := List.mem_map.mp hm
        have hq2 : q.2 ≠ 0 := by simpa using List.of_mem_filter hq
        have h1 := dlookup_eq_some_of_mem_nodup D p hnd hp
        have h2 := dlookup_eq_some_of_mem_nodup D q hnd (List.mem_of_mem_filter hq)
        rw [hq1, h1] at h2
        injection h2 with h3
        exact hq2 (h3 ▸ hz)
      rw [dlookup_eq_none _ _ hnot]
      simp [hz]
    · have hpf : p ∈ D.filter (fun q => q.2 ≠ 0) :=
        List.mem_filter.mpr ⟨hp, by simpa using hz⟩
      rw [dlookup_eq_some_of_mem_nodup _ p hndf hpf]
      simp

lemma filter_keys_append (E : Dict) (hk : ∀ p ∈ E, p.1 ≠ "") :
    (E ++ [(("" : String), (1 : Int))]).filter (fun p => p.1 ≠ "") = E := by
  rw [List.filter_append]
  rw [List.filter_eq_self.mpr (fun p hp => by simpa using hk p hp)]
  rw [show List.filter (fun p => decide (p.1 ≠ "")) [(("" : String), (1 : Int))] = []
    from rfl, List.append_nil]

/-- The parse-format-parse round trip up to dict value equality. -/
def roundTripOk (D : Dict) : Prop :=
  ∃ D2, form_to_comp (comp_to_formula D) = some D2 ∧ dictEqv0 D2 D = true

/-- C2 (amended): for a composition `D` produced by `form_to_comp` whose
negative counts all come after the positive ones and whose dash-ending keys
carry nonpositive counts, `form_to_comp (comp_to_formula D)` succeeds and
returns the same composition up to zero-count entries. -/
theorem form_roundtrip (s : String) (D : Dict) (h : form_to_comp s = some D)
    (hsort : SignSorted D) (hks : KeySignOk D) : roundTripOk D := by
  obtain ⟨hnd, hprops⟩ := parse_shape s D h
  have hpropsE : ∀ p ∈ D.filter (fun q => q.2 ≠ 0), p.1 ≠ "" ∧ NoDigits p.1 ∧ p.2 ≠ 0 := by
    intro p hp
    obtain ⟨h1, h2⟩ := List.mem_filter.mp hp
    exact ⟨(hprops p h1).1, (hprops p h1).2, by simpa using h2⟩
  have hndE : (dkeys (D.filter (fun q => q.2 ≠ 0))).Nodup :=
    List.Nodup.sublist (List.Sublist.map Prod.fst (List.filter_sublist D)) hnd
  have hsortE : SignSorted (D.filter (fun q => q.2 ≠ 0)) :=
    List.Pairwise.sublist (List.filter_sublist D) hsort
  refine ⟨D.filter (fun q => q.2 ≠ 0), ?_, dictEqv0_filter D hnd⟩
  have hfmt : comp_to_formula D = fmt (D.filter (fun q => q.2 ≠ 0)) := by
    rw [comp_to_formula_eq_fmt, fmt_filter]
    apply String.ext
    simp [String.data_append]
  rw [hfmt]
  have hiso : form_to_comp (fmt (D.filter (fun q => q.2 ≠ 0))) =
      Option.map (fun d => d.filter (fun p => p.1 ≠ ""))
      (pairUp (if (applySigns false (splitDigits (fmt (D.filter (fun q => q.2 ≠ 0))))).length
            % 2 ≠ 0 then
          applySigns false (splitDigits (fmt (D.filter (fun q => q.2 ≠ 0)))) ++ ["1"]
        else applySigns false (splitDigits (fmt (D.filter (fun q => q.2 ≠ 0))))) []) := rfl
  have hsplit : splitDigits (fmt (D.filter (fun q => q.2 ≠ 0))) =
      String.mk (hdRun (D.filter (fun q => q.2 ≠ 0))) :: tlToks (D.filter (fun q => q.2 ≠ 0)) := by
    show splitAuxND [] (fmt (D.filter (fun q => q.2 ≠ 0))).data = _
    rw [splitAuxND_fmt _ hpropsE []]
    simp
  have hsigns : applySigns false (splitDigits (fmt (D.filter (fun q => q.2 ≠ 0)))) =
      sigToks (D.filter (fun q => q.2 ≠ 0)) := by
    rw [hsplit]
    exact applySigns_fmt _ hpropsE hsortE
      (fun p hp => hks p (List.mem_of_mem_filter hp)) false
      (fun hf => absurd hf (by simp))
  rw [hiso, hsigns, if_pos (by rw [sigToks_length]; omega),
    pairUp_sigToks _ [], dinsertAll_append _ [] hndE (by simp [dkeys]),
    List.nil_append,
    dinsert_fresh _ "" 1 (fun hm => by
      obtain ⟨q, hq, hq1⟩ := List.mem_map.mp hm
      exact (hpropsE q hq).1 hq1),
    Option.map_some']
  rw [filter_keys_append _ (fun p hp => (hpropsE p hp).1)]

/-- Witness for C2 at the spec's example formula. -/
theorem form_roundtrip_witness :
    form_to_comp "C6O6N0H12" =
      some [(("C" : String), (6 : Int)), ("O", 6), ("N", 0), ("H", 12)] ∧
    roundTripOk [(("C" : String), (6 : Int)), ("O", 6), ("N", 0), ("H", 12)] :=
  ⟨by decide,
    form_roundtrip "C6O6N0H12" [(("C" : String), (6 : Int)), ("O", 6), ("N", 0), ("H", 12)]
      (by decide) (by unfold SignSorted; decide) (by unfold KeySignOk; decide)⟩
